import Mathlib

/-!
Verification of the orchestration core of the ai-agent-orchestration-system
repository: the priority task queue (server/taskQueue.js), the agent registry
(agentManager), and the coordinator protocol handlers (server/server.js).

The JavaScript code is shallowly embedded: JS Maps become insertion-ordered
association lists, JS Sets become duplicate-free lists, Date values become
integer timestamps passed explicitly into every operation that stamps time,
and JS NaN arising from arithmetic on an undefined field is represented by
the none case of an Option.
-/

namespace Orch

/-- An insertion-ordered association list, modelling a JS Map. -/
abbrev JsMap (α : Type) : Type := List (String × α)

namespace JsMap

/-- Map.get: the value stored at key k, if any. -/
def get {α : Type} : JsMap α → String → Option α
  | [], _ => none
  | (k', v) :: rest, k => if k' = k then some v else get rest k

/-- Map.set: overwrite in place when the key is present, else append. -/
def set {α : Type} : JsMap α → String → α → JsMap α
  | [], k, v => [(k, v)]
  | (k', v') :: rest, k, v =>
    if k' = k then (k, v) :: rest else (k', v') :: set rest k v

/-- Map.delete: drop the entry at key k (keys are kept duplicate-free). -/
def del {α : Type} : JsMap α → String → JsMap α
  | [], _ => []
  | (k', v) :: rest, k => if k' = k then rest else (k', v) :: del rest k

/-- Map.size, valid when keys are duplicate-free. -/
def size {α : Type} (m : JsMap α) : Nat := List.length m

/-- The list of keys of the map. -/
def keys {α : Type} (m : JsMap α) : List String := m.map (fun p => p.1)

end JsMap

/-- Set.add on a JS Set modelled as a duplicate-free list. -/
def setAdd (s : List String) (x : String) : List String :=
  if x ∈ s then s else s ++ [x]

/-- The result value an agent reports for a task; only the success flag is
inspected by the queue, and it may be absent (undefined). -/
structure TaskResult where
  success : Option Bool
  output : String
deriving DecidableEq, Repr

/-- A task record as stored in TaskQueue.tasks (taskQueue.js). Timestamps are
integers; fields that the source initializes to null are Options, and a null
or undefined result is the none case. -/
structure Task where
  id : String
  type : String
  payload : String
  priority : String
  requiredCapabilities : List String
  status : String
  createdAt : Int
  assignedAgent : Option String
  assignedAt : Option Int
  completedAt : Option Int
  result : Option TaskResult
  error : Option String
  retryCount : Nat
deriving DecidableEq, Repr

/-- An entry of TaskQueue.taskHistory, exactly the fields addToHistory copies
(taskQueue.js lines 196-215). Note that no createdAt field is copied. -/
structure HistoryEntry where
  taskId : String
  type : String
  priority : String
  requiredCapabilities : List String
  assignedAgent : Option String
  assignedAt : Option Int
  completedAt : Option Int
  duration : Int
  success : Bool
deriving DecidableEq, Repr

/-- The TaskQueue state (taskQueue.js constructor). -/
structure TaskQueue where
  tasks : JsMap Task
  pendingTasks : List String
  activeTasks : JsMap String
  completedTasks : JsMap (Option TaskResult)
  taskHistory : List HistoryEntry
deriving DecidableEq, Repr

/-- The freshly constructed queue. -/
def emptyQueue : TaskQueue :=
  { tasks := [], pendingTasks := [], activeTasks := [], completedTasks := [], taskHistory := [] }

namespace TaskQueue

/-- getPriorityValue (taskQueue.js lines 93-101): priorityMap lookup with
default 2 for unknown priorities. -/
def getPriorityValue (priority : String) : Nat :=
  if priority = "low" then 1
  else if priority = "normal" then 2
  else if priority = "high" then 3
  else if priority = "urgent" then 4
  else 2

/-- The priority ordinal of a stored task id, read through the tasks map as
insertTaskByPriority does. An id absent from the map would make the source
throw; the default here is never reached in well-formed states. -/
def taskPriorityOf (tasks : JsMap Task) (id : String) : Nat :=
  match tasks.get id with
  | some t => getPriorityValue t.priority
  | none => getPriorityValue ""

/-- The insertion loop of insertTaskByPriority (lines 74-85): walk the pending
list and splice the id in before the first entry of strictly lower priority. -/
def insertSorted (f : String → Nat) (p : Nat) (taskId : String) : List String → List String
  | [] => [taskId]
  | x :: xs => if p > f x then taskId :: x :: xs else x :: insertSorted f p taskId xs

/-- insertTaskByPriority (taskQueue.js lines 69-86). -/
def insertTaskByPriority (q : TaskQueue) (taskId : String) : TaskQueue :=
  { q with pendingTasks :=
      insertSorted (taskPriorityOf q.tasks) (taskPriorityOf q.tasks taskId) taskId q.pendingTasks }

/-- addTask (taskQueue.js lines 49-62): reset the lifecycle fields, store the
task, and insert its id into the priority ordering. -/
def addTask (q : TaskQueue) (task : Task) : TaskQueue :=
  let t := { task with status := "pending", assignedAgent := none,
                       assignedAt := none, completedAt := none, result := none }
  insertTaskByPriority { q with tasks := q.tasks.set task.id t } task.id

/-- canAgentHandleTask (taskQueue.js lines 131-136): every required capability
must be present in the capability list. -/
def canAgentHandleTask (task : Task) (agentCapabilities : List String) : Bool :=
  task.requiredCapabilities.all (fun capability => agentCapabilities.contains capability)

/-- The scan loop of getNextTask (lines 111-120). An id missing from the tasks
map would make the source throw; it is skipped here and never occurs in
well-formed states. -/
def getNextTaskAux (tasks : JsMap Task) (caps : List String) :
    List String → Option Task × List String
  | [] => (none, [])
  | id :: rest =>
    match tasks.get id with
    | some t =>
      if canAgentHandleTask t caps then (some t, rest)
      else
        let r := getNextTaskAux tasks caps rest
        (r.1, id :: r.2)
    | none =>
        let r := getNextTaskAux tasks caps rest
        (r.1, id :: r.2)

/-- getNextTask (taskQueue.js lines 109-123): return and remove the first
pending task the capability list can handle. -/
def getNextTask (q : TaskQueue) (agentCapabilities : List String) : Option Task × TaskQueue :=
  let r := getNextTaskAux q.tasks agentCapabilities q.pendingTasks
  (r.1, { q with pendingTasks := r.2 })

/-- assignTask (taskQueue.js lines 144-161). -/
def assignTask (q : TaskQueue) (taskId agentId : String) (now : Int) : Bool × TaskQueue :=
  match q.tasks.get taskId with
  | none => (false, q)
  | some t =>
    (true, { q with
      tasks := q.tasks.set taskId
        { t with status := "assigned", assignedAgent := some agentId, assignedAt := some now },
      activeTasks := q.activeTasks.set taskId agentId })

/-- addToHistory (taskQueue.js lines 196-215): push an entry built from the
task (with no createdAt field), then keep only the last 1000 entries. The JS
subtraction Date minus null coerces null to 0, hence the getD 0; the success
flag is result and result.success not strictly equal to false. -/
def historyEntryOf (t : Task) : HistoryEntry :=
  -- the entry literal of addToHistory (taskQueue.js lines 197-207)
  { taskId := t.id, type := t.type, priority := t.priority,
    requiredCapabilities := t.requiredCapabilities, assignedAgent := t.assignedAgent,
    assignedAt := t.assignedAt, completedAt := t.completedAt,
    duration := t.completedAt.getD 0 - t.assignedAt.getD 0,
    success := match t.result with
               | none => false
               | some r => decide (¬ r.success = some false) }

def addToHistory (history : List HistoryEntry) (t : Task) : List HistoryEntry :=
  let h := history ++ [historyEntryOf t]
  if h.length > 1000 then h.drop (h.length - 1000) else h

/-- completeTask (taskQueue.js lines 169-190). -/
def completeTask (q : TaskQueue) (taskId : String) (result : Option TaskResult) (now : Int) :
    Bool × TaskQueue :=
  match q.tasks.get taskId with
  | none => (false, q)
  | some t =>
    let t2 := { t with status := "completed", completedAt := some now, result := result }
    (true, { q with
      tasks := q.tasks.set taskId t2,
      activeTasks := q.activeTasks.del taskId,
      completedTasks := q.completedTasks.set taskId result,
      taskHistory := addToHistory q.taskHistory t2 })

/-- failTask (taskQueue.js lines 223-252): increment retryCount; below the
ceiling of 3, reset to pending and re-insert by priority; otherwise finalize
as failed and archive to history. -/
def failTask (q : TaskQueue) (taskId : String) (err : String) (now : Int) :
    Bool × TaskQueue :=
  match q.tasks.get taskId with
  | none => (false, q)
  | some t =>
    let t1 := { t with status := "failed", completedAt := some now, error := some err,
                       retryCount := t.retryCount + 1 }
    let q1 := { q with activeTasks := q.activeTasks.del taskId }
    if t1.retryCount < 3 then
      let t2 := { t1 with status := "pending", assignedAgent := none, assignedAt := none }
      (true, insertTaskByPriority { q1 with tasks := q1.tasks.set taskId t2 } taskId)
    else
      (true, { q1 with tasks := q1.tasks.set taskId t1,
                       taskHistory := addToHistory q1.taskHistory t1 })

/-- The predicate cleanup uses to delete a task (taskQueue.js lines 357-361);
a null completedAt coerces to 0 under the JS comparison. -/
def cleanupDead (cutoff : Int) (t : Task) : Bool :=
  t.status = "completed" && t.completedAt.getD 0 < cutoff

/-- cleanup (taskQueue.js lines 354-363): sweep completed tasks older than 24
hours out of the task store and the completed map. -/
def cleanup (q : TaskQueue) (now : Int) : TaskQueue :=
  let cutoff := now - 24 * 60 * 60 * 1000
  { q with
    tasks := q.tasks.filter (fun p => ! cleanupDead cutoff p.2),
    completedTasks := q.completedTasks.filter (fun p =>
      match q.tasks.get p.1 with
      | some t => ! cleanupDead cutoff t
      | none => true) }

/-- The record returned by TaskQueue.getStats. Ratio-valued fields are exact
rationals; averageWaitTime is an Option because the source computes it from a
field that history entries do not carry, so in JS it can be NaN (none). -/
structure QStats where
  pending : Nat
  active : Nat
  completed : Nat
  total : Nat
  averageWaitTime : Option Rat
  averageCompletionTime : Rat
  successRate : Rat
deriving DecidableEq, Repr

/-- JS subtraction where either operand may be undefined: NaN (none) results
unless both are numbers. -/
def jsSub (a b : Option Int) : Option Int :=
  match a, b with
  | some x, some y => some (x - y)
  | _, _ => none

/-- Summation over possibly-NaN values: any NaN poisons the sum, as in the JS
reduce over the wait-time list. -/
def jsSum (l : List (Option Int)) : Option Int :=
  l.foldl (fun acc x => match acc, x with
                        | some a, some b => some (a + b)
                        | _, _ => none) (some 0)

/-- getStats (taskQueue.js lines 276-310). The wait-time computation reads
task.createdAt on history entries; addToHistory never copies createdAt, so
that access is undefined and each wait time is NaN, modelled by jsSub with a
none second operand. -/
def getStats (q : TaskQueue) : QStats :=
  let completedEntries := q.taskHistory.filter (fun e => e.completedAt.isSome)
  let base : QStats :=
    { pending := q.pendingTasks.length, active := q.activeTasks.size,
      completed := q.completedTasks.size, total := q.tasks.size,
      averageWaitTime := some 0, averageCompletionTime := 0, successRate := 0 }
  if completedEntries.length > 0 then
    let waitTimes : List (Option Int) :=
      (completedEntries.filter (fun e => e.assignedAt.isSome)).map
        (fun e => jsSub e.assignedAt none)
    let varWait : Option Rat :=
      if waitTimes.length > 0 then
        (jsSum waitTimes).map (fun s => (s : Rat) / (waitTimes.length : Rat))
      else some 0
    let completionTimes := completedEntries.map (fun e => e.duration)
    let successful := completedEntries.filter (fun e => e.success)
    { base with
      averageWaitTime := varWait,
      averageCompletionTime :=
        ((completionTimes.foldl (fun a b => a + b) 0 : Int) : Rat) /
          (completionTimes.length : Rat),
      successRate := (successful.length : Rat) / (completedEntries.length : Rat) }
  else base

/-- The structural well-formedness invariant of the queue state: stores are
duplicate-free, stored tasks carry their own key as id, membership in the
pending ordering, the active map and the completed map tracks the status
field, and the three side structures only mention known ids. -/
structure QInv (q : TaskQueue) : Prop where
  tasksNodup : q.tasks.keys.Nodup
  pendingNodup : q.pendingTasks.Nodup
  activeNodup : q.activeTasks.keys.Nodup
  completedNodup : q.completedTasks.keys.Nodup
  idCoherent : ∀ id t, q.tasks.get id = some t → t.id = id
  pending_iff : ∀ id t, q.tasks.get id = some t → (t.status = "pending" ↔ id ∈ q.pendingTasks)
  active_iff : ∀ id t, q.tasks.get id = some t → (t.status = "assigned" ↔ id ∈ q.activeTasks.keys)
  completed_iff : ∀ id t, q.tasks.get id = some t →
    (t.status = "completed" ↔ id ∈ q.completedTasks.keys)
  pending_known : ∀ id ∈ q.pendingTasks, (q.tasks.get id).isSome
  active_known : ∀ id ∈ q.activeTasks.keys, (q.tasks.get id).isSome
  completed_known : ∀ id ∈ q.completedTasks.keys, (q.tasks.get id).isSome

/-- A protocol-respecting queue operation, as the coordinator performs them:
submissions use a fresh id, a successful getNextTask is immediately followed
by assignTask on the returned task, and completion and failure reports are
applied to tasks that are currently assigned. -/
inductive QStep : TaskQueue → TaskQueue → Prop where
  | add (q : TaskQueue) (t : Task) (h : q.tasks.get t.id = none) : QStep q (q.addTask t)
  | takeAssign (q : TaskQueue) (caps : List String) (aid : String) (now : Int) (t : Task)
      (q1 : TaskQueue) (h : q.getNextTask caps = (some t, q1)) :
      QStep q ((q1.assignTask t.id aid now).2)
  | complete (q : TaskQueue) (tid : String) (r : Option TaskResult) (now : Int) (t : Task)
      (h : q.tasks.get tid = some t) (hs : t.status = "assigned") :
      QStep q ((q.completeTask tid r now).2)
  | fail (q : TaskQueue) (tid err : String) (now : Int) (t : Task)
      (h : q.tasks.get tid = some t) (hs : t.status = "assigned") :
      QStep q ((q.failTask tid err now).2)
  | sweep (q : TaskQueue) (now : Int) : QStep q (q.cleanup now)

/-- Queue states reachable from the fresh queue by protocol-respecting
operations. -/
inductive QReach : TaskQueue → Prop where
  | init : QReach emptyQueue
  | step {q q' : TaskQueue} (hr : QReach q) (hs : QStep q q') : QReach q'

/-- An arbitrary single queue operation, with no protocol discipline beyond
submissions carrying a fresh id (the coordinator generates uuids). -/
inductive QAnyStep : TaskQueue → TaskQueue → Prop where
  | add (q : TaskQueue) (t : Task) (h : q.tasks.get t.id = none) : QAnyStep q (q.addTask t)
  | next (q : TaskQueue) (caps : List String) : QAnyStep q (q.getNextTask caps).2
  | assign (q : TaskQueue) (tid aid : String) (now : Int) :
      QAnyStep q (q.assignTask tid aid now).2
  | complete (q : TaskQueue) (tid : String) (r : Option TaskResult) (now : Int) :
      QAnyStep q (q.completeTask tid r now).2
  | fail (q : TaskQueue) (tid err : String) (now : Int) : QAnyStep q (q.failTask tid err now).2
  | sweep (q : TaskQueue) (now : Int) : QAnyStep q (q.cleanup now)

end TaskQueue

/-- An agent record as built by handleAgentRegistration (server.js line 124);
the connection handle ws is an opaque number. -/
structure Agent where
  id : String
  ws : Nat
  capabilities : List String
  status : String
  registeredAt : Int
  lastHeartbeat : Option Int
  lastTaskCompletedAt : Option Int
deriving DecidableEq, Repr

/-- The AgentManager state (agentManager constructor): the agent registry and
the capability index mapping each capability to the set of agent ids. -/
structure AgentManager where
  agents : JsMap Agent
  capabilities : JsMap (List String)
deriving DecidableEq, Repr

/-- The freshly constructed manager. -/
def emptyManager : AgentManager := { agents := [], capabilities := [] }

namespace AgentManager

/-- addAgent (agentManager lines 34-46): register the agent and add its id to
the bucket of every capability it reports, creating buckets as needed. -/
def addAgent (m : AgentManager) (agent : Agent) : AgentManager :=
  { agents := m.agents.set agent.id agent,
    capabilities := agent.capabilities.foldl
      (fun caps capability =>
        match caps.get capability with
        | none => caps.set capability [agent.id]
        | some s => caps.set capability (setAdd s agent.id)) m.capabilities }

/-- removeAgent (agentManager lines 54-79): reverse-lookup the agent by its
connection, delete its id from every capability bucket it belonged to,
deleting buckets that become empty, then drop it from the registry. -/
def removeAgent (m : AgentManager) (ws : Nat) : AgentManager :=
  match m.agents.find? (fun p => p.2.ws = ws) with
  | none => m
  | some (id, ag) =>
    { agents := m.agents.del id,
      capabilities := ag.capabilities.foldl
        (fun caps capability =>
          match caps.get capability with
          | none => caps
          | some s =>
            let s2 := s.erase id
            if s2.isEmpty then caps.del capability else caps.set capability s2)
        m.capabilities }

/-- updateAgentStatus (agentManager lines 96-107): store the reported status
verbatim, refresh the heartbeat, and stamp lastTaskCompletedAt on idle. -/
def updateAgentStatus (m : AgentManager) (agentId status : String) (now : Int) : AgentManager :=
  match m.agents.get agentId with
  | none => m
  | some ag =>
    let ag1 := { ag with status := status, lastHeartbeat := some now }
    let ag2 := if status = "idle" then { ag1 with lastTaskCompletedAt := some now } else ag1
    { m with agents := m.agents.set agentId ag2 }

/-- getIdleAgents (agentManager lines 116-135): every idle agent holding all
required capabilities, in registry order. -/
def getIdleAgents (m : AgentManager) (requiredCapabilities : List String) : List Agent :=
  ((m.agents.map (fun p => p.2)).filter
    (fun a => a.status = "idle" &&
      requiredCapabilities.all (fun c => a.capabilities.contains c)))

/-- The number of registered agents whose stored status is the given string,
matching the per-status tally of getStats (agentManager lines 166-168). -/
def countStatus (m : AgentManager) (s : String) : Nat :=
  ((m.agents.map (fun p => p.2)).filter (fun a => a.status = s)).length

/-- The fixed fields of the stats record getStats returns (agentManager lines
157-171). Statuses outside idle, busy and offline are tallied by the source
under dynamically created keys and do not enter these three counters. -/
structure AStats where
  total : Nat
  idle : Nat
  busy : Nat
  offline : Nat
  capabilities : List String
deriving DecidableEq, Repr

/-- getStats (agentManager lines 157-171). -/
def getStats (m : AgentManager) : AStats :=
  { total := m.agents.size,
    idle := countStatus m "idle",
    busy := countStatus m "busy",
    offline := countStatus m "offline",
    capabilities := m.capabilities.keys }

/-- The step function of the addAgent capability-index loop. -/
def addCapStep (aid : String) (caps2 : JsMap (List String)) (capability : String) :
    JsMap (List String) :=
  match caps2.get capability with
  | none => caps2.set capability [aid]
  | some s => caps2.set capability (setAdd s aid)

/-- The step function of the removeAgent capability-index loop. -/
def removeCapStep (aid : String) (caps2 : JsMap (List String)) (capability : String) :
    JsMap (List String) :=
  match caps2.get capability with
  | none => caps2
  | some s =>
    let s2 := s.erase aid
    if s2.isEmpty then caps2.del capability else caps2.set capability s2

/-- The effect of the removeAgent loop on one bucket. -/
def rmApply (aid : String) : Option (List String) → Option (List String)
  | none => none
  | some s =>
    let s2 := s.erase aid
    if s2.isEmpty then none else some s2

end AgentManager

/-- The combined mutable state of the coordinator (server.js). -/
structure ServerState where
  agents : AgentManager
  queue : TaskQueue
deriving DecidableEq, Repr

/-- The freshly started server. -/
def emptyServer : ServerState := { agents := emptyManager, queue := emptyQueue }

/-- tryAssignTask (server.js lines 174-185): if the agent exists and is idle,
take the first compatible pending task, flip the agent to busy and record the
assignment. Sending the task over the socket is external output. -/
def tryAssignTask (st : ServerState) (agentId : String) (now : Int) : ServerState :=
  match st.agents.agents.get agentId with
  | none => st
  | some ag =>
    if ag.status = "idle" then
      match st.queue.getNextTask ag.capabilities with
      | (none, _) => st
      | (some task, q1) =>
        let am := st.agents.updateAgentStatus agentId "busy" now
        { agents := am, queue := (q1.assignTask task.id agentId now).2 }
    else st

/-- A protocol message as dispatched by handleMessage (server.js lines
98-114). The fresh uuid for a registration is a parameter of the event. -/
inductive Msg : Type
  | agentRegister (ws : Nat) (caps : List String) (newId : String)
  | agentStatus (agentId : String) (status : String)
  | taskResult (taskId : String) (agentId : String) (result : Option TaskResult)
  | dashboardConnect
deriving DecidableEq, Repr

/-- handleMessage (server.js lines 98-114) together with the per-case
handlers handleAgentRegistration (122-128), handleAgentStatus (136-141) and
handleTaskResult (149-167). Log-file writes and dashboard broadcasts are
external output and do not touch the registries. -/
def handleMessage (st : ServerState) (msg : Msg) (now : Int) : ServerState :=
  match msg with
  | .agentRegister ws caps newId =>
    let ag : Agent :=
      { id := newId, ws := ws, capabilities := caps, status := "idle",
        registeredAt := now, lastHeartbeat := some now, lastTaskCompletedAt := none }
    tryAssignTask { st with agents := st.agents.addAgent ag } newId now
  | .agentStatus agentId status =>
    let st1 := { st with agents := st.agents.updateAgentStatus agentId status now }
    if status = "idle" then tryAssignTask st1 agentId now else st1
  | .taskResult taskId agentId result =>
    let st1 := { st with queue := (st.queue.completeTask taskId result now).2 }
    tryAssignTask st1 agentId now
  | .dashboardConnect => st

/-- The body of a POST to the task-submission route; the route reads type and
payload and ignores the rest. An absent type is the empty string (falsy). -/
structure SubmitBody where
  type : String
  payload : String
  priority : String
  requiredCapabilities : List String
deriving DecidableEq, Repr

/-- tryAssignToAnyAgent (server.js lines 213-229): when idle capable agents
exist, ask the external oracle; its answer (or its failure, none) arrives as
a parameter. On an answer, attempt the assignment; otherwise leave the task
queued. -/
def tryAssignToAnyAgent (st : ServerState) (task : Task) (oracleChoice : Option String)
    (now : Int) : ServerState :=
  let availableAgents := st.agents.getIdleAgents task.requiredCapabilities
  if availableAgents.length > 0 then
    match oracleChoice with
    | some bestAgentId => tryAssignTask st bestAgentId now
    | none => st
  else st

/-- The task-submission route (server.js lines 193-200): build the task with
priority hard-coded to high and requiredCapabilities derived from the type
field, add it to the queue, respond success with the generated id, then try
an oracle-guided assignment. The response pair is returned alongside the
state after the whole handler. -/
def submitTask (st : ServerState) (body : SubmitBody) (newId : String)
    (oracleChoice : Option String) (now : Int) : (Bool × String) × ServerState :=
  let requiredCapabilities := if body.type = "" then [] else [body.type]
  let task : Task :=
    { id := newId, type := body.type, payload := body.payload, priority := "high",
      requiredCapabilities := requiredCapabilities, createdAt := now, status := "pending",
      assignedAgent := none, assignedAt := none, completedAt := none,
      result := none, error := none, retryCount := 0 }
  let st1 := { st with queue := st.queue.addTask task }
  ((true, newId), tryAssignToAnyAgent st1 task oracleChoice now)

/-- The well-formedness invariant of the registry: duplicate-free stores, no
empty buckets, and the capability index in exact correspondence with the
registered agents and their capability lists. -/
structure AInv (m : AgentManager) : Prop where
  agentsNodup : m.agents.keys.Nodup
  capsNodup : m.capabilities.keys.Nodup
  bucketsNodup : ∀ c s, m.capabilities.get c = some s → s.Nodup
  bucketsNonempty : ∀ c s, m.capabilities.get c = some s → s ≠ []
  mem_iff : ∀ c aid, (∃ s, m.capabilities.get c = some s ∧ aid ∈ s) ↔
    (∃ ag, m.agents.get aid = some ag ∧ c ∈ ag.capabilities)

/-- A registry operation as the coordinator performs it: registrations carry a
fresh id (the server generates uuids) and removals are keyed by connection. -/
inductive AStep : AgentManager → AgentManager → Prop where
  | add (m : AgentManager) (a : Agent) (h : m.agents.get a.id = none) : AStep m (m.addAgent a)
  | remove (m : AgentManager) (ws : Nat) : AStep m (m.removeAgent ws)

/-- Registry states reachable from the fresh registry. -/
inductive AReach : AgentManager → Prop where
  | init : AReach emptyManager
  | step {m m' : AgentManager} (hr : AReach m) (hs : AStep m m') : AReach m'

/-- The pending ordering is sorted by descending priority ordinal, reading
each id through the queue's task store. -/
def PendingSortedDesc (q : TaskQueue) : Prop :=
  q.pendingTasks.Pairwise
    (fun a b => TaskQueue.taskPriorityOf q.tasks b ≤ TaskQueue.taskPriorityOf q.tasks a)

/-- A small concrete task used to exercise the operations. -/
def exTask (i : String) (prio : String) (caps : List String) : Task :=
  { id := i, type := "t", payload := "", priority := prio, requiredCapabilities := caps,
    status := "pending", createdAt := 0, assignedAgent := none, assignedAt := none,
    completedAt := none, result := none, error := none, retryCount := 0 }

/-- A small concrete agent used to exercise the registry. -/
def exAgent : Agent :=
  { id := "a1", ws := 7, capabilities := ["text"], status := "idle", registeredAt := 0,
    lastHeartbeat := some 0, lastTaskCompletedAt := none }

/-- A queue that has carried one task through submit, take, assign at time 10
and complete at time 30, with creation at time 0. -/
def q8 : TaskQueue :=
  ((((emptyQueue.addTask (exTask "t1" "normal" [])).getNextTask
      []).2.assignTask "t1" "ag" 10).2.completeTask "t1"
    (some { success := some true, output := "ok" }) 30).2

/-- A server state holding one assigned task, and a failure report for it. -/
def st9 : ServerState :=
  { agents := emptyManager,
    queue := (((emptyQueue.addTask (exTask "t1" "normal" [])).getNextTask
      []).2.assignTask "t1" "ag" 10).2 }

def msg9 : Msg := Msg.taskResult "t1" "ag" (some { success := some false, output := "err" })

namespace JsMap

theorem get_set_self {α : Type} (m : JsMap α) (k : String) (v : α) :
    (m.set k v).get k = some v := by
  induction m with
  | nil => simp [JsMap.set, JsMap.get]
  | cons hd tl ih =>
    obtain ⟨hk, hv⟩ := hd
    by_cases h : hk = k
    · subst h; simp [JsMap.set, JsMap.get]
    · simp [JsMap.set, JsMap.get, h, ih]

theorem get_set_ne {α : Type} (m : JsMap α) (k a : String) (v : α) (h : a ≠ k) :
    (m.set k v).get a = m.get a := by
  have hka : ¬ k = a := fun hh => h hh.symm
  induction m with
  | nil => simp [JsMap.set, JsMap.get, hka]
  | cons hd tl ih =>
    obtain ⟨hk, hv⟩ := hd
    by_cases h1 : hk = k
    · subst h1
      simp [JsMap.set, JsMap.get, hka]
    · simp only [JsMap.set, if_neg h1, JsMap.get]
      by_cases h2 : hk = a
      · simp [h2]
      · simp [h2, ih]

theorem mem_keys_set {α : Type} (m : JsMap α) (k a : String) (v : α) :
    a ∈ (m.set k v).keys ↔ a = k ∨ a ∈ m.keys := by
  induction m with
  | nil => simp [JsMap.set, JsMap.keys]
  | cons hd tl ih =>
    obtain ⟨hk, hv⟩ := hd
    by_cases h : hk = k
    · subst h; simp [JsMap.set, JsMap.keys]
    · simp only [JsMap.set, if_neg h, JsMap.keys, List.map_cons, List.mem_cons]
      simp only [JsMap.keys] at ih
      rw [ih]
      tauto

theorem keys_nodup_set {α : Type} (m : JsMap α) (k : String) (v : α)
    (h : m.keys.Nodup) : (m.set k v).keys.Nodup := by
  induction m with
  | nil => simp [JsMap.set, JsMap.keys]
  | cons hd tl ih =>
    obtain ⟨hk, hv⟩ := hd
    simp only [JsMap.keys, List.map_cons, List.nodup_cons] at h
    by_cases h1 : hk = k
    · subst h1
      have hset : JsMap.set ((hk, hv) :: tl) hk v = (hk, v) :: tl := by simp [JsMap.set]
      rw [hset]
      simpa [JsMap.keys, List.nodup_cons] using h
    · simp only [JsMap.set, if_neg h1, JsMap.keys, List.map_cons, List.nodup_cons]
      refine ⟨?_, ih h.2⟩
      intro hmem
      have hmem2 : hk ∈ (JsMap.set tl k v).keys := by simpa [JsMap.keys] using hmem
      rcases (mem_keys_set tl k hk v).mp hmem2 with rfl | hmem3
      · exact h1 rfl
      · exact h.1 (by simpa [JsMap.keys] using hmem3)

theorem get_eq_none_iff {α : Type} (m : JsMap α) (k : String) :
    m.get k = none ↔ k ∉ m.keys := by
  induction m with
  | nil => simp [JsMap.get, JsMap.keys]
  | cons hd tl ih =>
    obtain ⟨hk, hv⟩ := hd
    by_cases h : hk = k
    · subst h; simp [JsMap.get, JsMap.keys]
    · have hka : ¬ k = hk := fun hh => h hh.symm
      simp only [JsMap.get, if_neg h, JsMap.keys, List.map_cons, List.mem_cons]
      simp only [JsMap.keys] at ih
      rw [ih]
      tauto

theorem isSome_get_iff {α : Type} (m : JsMap α) (k : String) :
    (m.get k).isSome ↔ k ∈ m.keys := by
  rcases h : m.get k with _ | v
  · rw [get_eq_none_iff] at h; simp [h]
  · have : k ∈ m.keys := by
      by_contra hk
      rw [← get_eq_none_iff] at hk
      rw [h] at hk
      exact Option.noConfusion hk
    simp [this]

theorem get_del_ne {α : Type} (m : JsMap α) (k a : String) (h : a ≠ k) :
    (m.del k).get a = m.get a := by
  induction m with
  | nil => simp [JsMap.del]
  | cons hd tl ih =>
    obtain ⟨hk, hv⟩ := hd
    by_cases h1 : hk = k
    · subst h1
      have hka : ¬ hk = a := fun hh => h hh.symm
      simp [JsMap.del, JsMap.get, hka]
    · simp only [JsMap.del, if_neg h1, JsMap.get]
      by_cases h2 : hk = a
      · simp [h2]
      · simp [h2, ih]

theorem keys_del_sublist {α : Type} (m : JsMap α) (k : String) :
    List.Sublist (m.del k).keys m.keys := by
  induction m with
  | nil => simp [JsMap.del]
  | cons hd tl ih =>
    obtain ⟨hk, hv⟩ := hd
    by_cases h1 : hk = k
    · subst h1
      simp only [JsMap.del, if_pos rfl, JsMap.keys, List.map_cons]
      exact List.sublist_cons_self _ _
    · simp only [JsMap.del, if_neg h1, JsMap.keys, List.map_cons]
      exact List.Sublist.cons₂ _ ih

theorem keys_nodup_del {α : Type} (m : JsMap α) (k : String) (h : m.keys.Nodup) :
    (m.del k).keys.Nodup :=
  h.sublist (keys_del_sublist m k)

theorem mem_keys_del_ne {α : Type} (m : JsMap α) (k a : String) (h : a ≠ k) :
    a ∈ (m.del k).keys ↔ a ∈ m.keys := by
  constructor
  · exact fun hm => (keys_del_sublist m k).subset hm
  · intro hm
    rw [← isSome_get_iff] at hm ⊢
    rwa [get_del_ne m k a h]

theorem not_mem_keys_del_self {α : Type} (m : JsMap α) (k : String)
    (h : m.keys.Nodup) : k ∉ (m.del k).keys := by
  induction m with
  | nil => simp [JsMap.del, JsMap.keys]
  | cons hd tl ih =>
    obtain ⟨hk, hv⟩ := hd
    simp only [JsMap.keys, List.map_cons, List.nodup_cons] at h
    by_cases h1 : hk = k
    · subst h1
      intro hmem
      exact h.1 (by simpa [JsMap.del, JsMap.keys] using hmem)
    · simp only [JsMap.del, if_neg h1, JsMap.keys, List.map_cons, List.mem_cons]
      rintro (rfl | hmem)
      · exact h1 rfl
      · exact ih h.2 (by simpa [JsMap.keys] using hmem)

theorem get_del_self {α : Type} (m : JsMap α) (k : String) (h : m.keys.Nodup) :
    (m.del k).get k = none :=
  (get_eq_none_iff _ _).mpr (not_mem_keys_del_self m k h)

theorem keys_filter_sublist {α : Type} (m : JsMap α) (p : String × α → Bool) :
    List.Sublist (JsMap.keys (List.filter p m)) (JsMap.keys m) :=
  List.Sublist.map _ (List.filter_sublist m)

theorem get_filter {α : Type} (m : JsMap α) (p : String × α → Bool) (k : String)
    (h : m.keys.Nodup) :
    (JsMap.get (List.filter p m) k) =
      (m.get k).bind (fun v => if p (k, v) then some v else none) := by
  induction m with
  | nil => simp [JsMap.get]
  | cons hd tl ih =>
    obtain ⟨hk, hv⟩ := hd
    simp only [JsMap.keys, List.map_cons, List.nodup_cons] at h
    by_cases h1 : hk = k
    · subst h1
      by_cases hp : p (hk, hv)
      · simp [List.filter_cons, hp, JsMap.get]
      · rw [List.filter_cons, if_neg (by simpa using hp)]
        have hnone : JsMap.get (List.filter p tl) hk = none := by
          rw [get_eq_none_iff]
          intro hmem
          exact h.1 (by simpa [JsMap.keys] using (keys_filter_sublist tl p).subset hmem)
        rw [hnone]
        simp [JsMap.get, hp]
    · by_cases hp : p (hk, hv)
      · rw [List.filter_cons, if_pos (by simpa using hp)]
        simp only [JsMap.get, if_neg h1]
        exact ih h.2
      · rw [List.filter_cons, if_neg (by simpa using hp)]
        rw [ih h.2]
        simp [JsMap.get, h1]

theorem mem_keys_filter {α : Type} (m : JsMap α) (p : String × α → Bool) (k : String)
    (h : m.keys.Nodup) :
    k ∈ JsMap.keys (List.filter p m) ↔
      ∃ v, m.get k = some v ∧ p (k, v) = true := by
  rw [← isSome_get_iff, get_filter m p k h]
  rcases m.get k with _ | v
  · simp
  · by_cases hp : p (k, v) <;> simp [hp]

end JsMap

namespace TaskQueue

theorem insertSorted_perm (f : String → Nat) (p : Nat) (id : String) (l : List String) :
    (insertSorted f p id l).Perm (id :: l) := by
  induction l with
  | nil => simp [insertSorted]
  | cons x xs ih =>
    by_cases h : p > f x
    · simp [insertSorted, h]
    · simp only [insertSorted, if_neg h]
      exact (ih.cons x).trans (List.Perm.swap id x xs)

theorem mem_insertSorted (f : String → Nat) (p : Nat) (id a : String) (l : List String) :
    a ∈ insertSorted f p id l ↔ a = id ∨ a ∈ l := by
  rw [(insertSorted_perm f p id l).mem_iff]
  simp

theorem nodup_insertSorted (f : String → Nat) (p : Nat) (id : String) (l : List String)
    (h : l.Nodup) (hid : id ∉ l) : (insertSorted f p id l).Nodup :=
  ((insertSorted_perm f p id l).nodup_iff).mpr (List.nodup_cons.mpr ⟨hid, h⟩)

theorem insertSorted_eq_take_drop (f : String → Nat) (p : Nat) (id : String) (l : List String) :
    insertSorted f p id l =
      l.takeWhile (fun x => decide (p ≤ f x)) ++ id :: l.dropWhile (fun x => decide (p ≤ f x)) := by
  induction l with
  | nil => simp [insertSorted]
  | cons x xs ih =>
    by_cases h : p > f x
    · have hx : ¬ p ≤ f x := by omega
      simp [insertSorted, h, List.takeWhile_cons, List.dropWhile_cons, hx]
    · have hx : p ≤ f x := by omega
      simp [insertSorted, h, List.takeWhile_cons, List.dropWhile_cons, hx, ih]

theorem insertSorted_pairwise (f : String → Nat) (id : String) (l : List String)
    (h : l.Pairwise (fun a b => f b ≤ f a)) :
    (insertSorted f (f id) id l).Pairwise (fun a b => f b ≤ f a) := by
  induction l with
  | nil => simp [insertSorted]
  | cons x xs ih =>
    rw [List.pairwise_cons] at h
    by_cases hx : f id > f x
    · simp only [insertSorted, if_pos hx]
      rw [List.pairwise_cons]
      constructor
      · intro b hb
        rcases List.mem_cons.mp hb with rfl | hb
        · omega
        · have := h.1 b hb; omega
      · rw [List.pairwise_cons]
        exact h
    · simp only [insertSorted, if_neg hx]
      rw [List.pairwise_cons]
      constructor
      · intro b hb
        rcases (mem_insertSorted f (f id) id b xs).mp hb with rfl | hb
        · omega
        · exact h.1 b hb
      · exact ih h.2

theorem pairwise_prio_congr {f g : String → Nat} {l : List String}
    (h : ∀ x ∈ l, f x = g x) (hp : l.Pairwise (fun a b => f b ≤ f a)) :
    l.Pairwise (fun a b => g b ≤ g a) := by
  induction l with
  | nil => exact List.Pairwise.nil
  | cons x xs ih =>
    rw [List.pairwise_cons] at hp ⊢
    constructor
    · intro b hb
      rw [← h x (List.mem_cons_self x xs), ← h b (List.mem_cons_of_mem x hb)]
      exact hp.1 b hb
    · exact ih (fun y hy => h y (List.mem_cons_of_mem x hy)) hp.2

theorem head_dropWhile_false {α : Type} (p : α → Bool) (l : List α) (x : α)
    (h : (l.dropWhile p).head? = some x) : p x = false := by
  induction l with
  | nil => simp [List.dropWhile] at h
  | cons y ys ih =>
    rw [List.dropWhile_cons] at h
    by_cases hy : p y = true
    · rw [if_pos hy] at h
      exact ih h
    · rw [if_neg hy] at h
      simp only [List.head?_cons, Option.some.injEq] at h
      subst h
      simpa using hy

theorem mem_takeWhile_le {f : String → Nat} {p : Nat} {l : List String} {x : String}
    (h : x ∈ l.takeWhile (fun x => decide (p ≤ f x))) : p ≤ f x := by
  have := List.mem_takeWhile_imp h
  simpa using this

theorem getNextTaskAux_none (tasks : JsMap Task) (caps : List String) (l : List String)
    (h : (getNextTaskAux tasks caps l).1 = none) :
    (getNextTaskAux tasks caps l).2 = l ∧
    ∀ id ∈ l, ∀ t, tasks.get id = some t → canAgentHandleTask t caps = false := by
  induction l with
  | nil => simp [getNextTaskAux]
  | cons id rest ih =>
    rcases hget : tasks.get id with _ | u
    · simp only [getNextTaskAux, hget] at h ⊢
      obtain ⟨h2, h3⟩ := ih h
      refine ⟨by simp [h2], ?_⟩
      intro a ha t hat
      rcases List.mem_cons.mp ha with rfl | ha
      · rw [hget] at hat; exact Option.noConfusion hat
      · exact h3 a ha t hat
    · by_cases hcan : canAgentHandleTask u caps
      · simp [getNextTaskAux, hget, hcan] at h
      · simp only [getNextTaskAux, hget, hcan, Bool.false_eq_true, if_neg] at h ⊢
        obtain ⟨h2, h3⟩ := ih h
        refine ⟨by simp [h2], ?_⟩
        intro a ha t hat
        rcases List.mem_cons.mp ha with rfl | ha
        · rw [hget] at hat
          cases hat
          simpa using hcan
        · exact h3 a ha t hat

theorem getNextTaskAux_some (tasks : JsMap Task) (caps : List String) (l : List String)
    (t : Task) (h : (getNextTaskAux tasks caps l).1 = some t) :
    ∃ id l1 l2, l = l1 ++ id :: l2 ∧ (getNextTaskAux tasks caps l).2 = l1 ++ l2 ∧
      tasks.get id = some t ∧ canAgentHandleTask t caps = true ∧
      ∀ a ∈ l1, ∀ u, tasks.get a = some u → canAgentHandleTask u caps = false := by
  induction l with
  | nil => simp [getNextTaskAux] at h
  | cons id rest ih =>
    rcases hget : tasks.get id with _ | u
    · simp only [getNextTaskAux, hget] at h ⊢
      obtain ⟨id0, l1, l2, hsplit, hrem, hgot, hcan, hpre⟩ := ih h
      refine ⟨id0, id :: l1, l2, by simp [hsplit], by simp [hrem], hgot, hcan, ?_⟩
      intro a ha u hau
      rcases List.mem_cons.mp ha with rfl | ha
      · rw [hget] at hau; exact Option.noConfusion hau
      · exact hpre a ha u hau
    · by_cases hcan : canAgentHandleTask u caps
      · simp only [getNextTaskAux, hget, hcan, if_pos] at h ⊢
        cases h
        exact ⟨id, [], rest, rfl, rfl, hget, by simpa using hcan, by simp⟩
      · simp only [getNextTaskAux, hget, hcan, Bool.false_eq_true, if_neg] at h ⊢
        obtain ⟨id0, l1, l2, hsplit, hrem, hgot, hcan0, hpre⟩ := ih h
        refine ⟨id0, id :: l1, l2, by simp [hsplit], by simp [hrem], hgot, hcan0, ?_⟩
        intro a ha v hav
        rcases List.mem_cons.mp ha with rfl | ha
        · rw [hget] at hav
          cases hav
          simpa using hcan
        · exact hpre a ha v hav

theorem addTask_tasks (q : TaskQueue) (t : Task) :
    (q.addTask t).tasks = q.tasks.set t.id
      { t with status := "pending", assignedAgent := none, assignedAt := none,
               completedAt := none, result := none } := rfl

theorem addTask_pending (q : TaskQueue) (t : Task) :
    (q.addTask t).pendingTasks =
      insertSorted (taskPriorityOf (q.addTask t).tasks)
        (taskPriorityOf (q.addTask t).tasks t.id) t.id q.pendingTasks := rfl

theorem addTask_active (q : TaskQueue) (t : Task) :
    (q.addTask t).activeTasks = q.activeTasks := rfl

theorem addTask_completed (q : TaskQueue) (t : Task) :
    (q.addTask t).completedTasks = q.completedTasks := rfl

theorem assignTask_of_get (q : TaskQueue) (tid aid : String) (now : Int) (t : Task)
    (h : q.tasks.get tid = some t) :
    q.assignTask tid aid now = (true,
      { q with
        tasks := q.tasks.set tid { t with status := "assigned", assignedAgent := some aid, assignedAt := some now },
        activeTasks := q.activeTasks.set tid aid }) := by
  simp [assignTask, h]

theorem assignTask_of_none (q : TaskQueue) (tid aid : String) (now : Int)
    (h : q.tasks.get tid = none) : q.assignTask tid aid now = (false, q) := by
  simp [assignTask, h]

theorem completeTask_of_get (q : TaskQueue) (tid : String) (r : Option TaskResult)
    (now : Int) (t : Task) (h : q.tasks.get tid = some t) :
    q.completeTask tid r now = (true,
      { q with
        tasks := q.tasks.set tid { t with status := "completed", completedAt := some now, result := r },
        activeTasks := q.activeTasks.del tid,
        completedTasks := q.completedTasks.set tid r,
        taskHistory := addToHistory q.taskHistory { t with status := "completed", completedAt := some now, result := r } }) := by
  simp [completeTask, h]

theorem completeTask_of_none (q : TaskQueue) (tid : String) (r : Option TaskResult)
    (now : Int) (h : q.tasks.get tid = none) : q.completeTask tid r now = (false, q) := by
  simp [completeTask, h]

theorem failTask_of_none (q : TaskQueue) (tid err : String) (now : Int)
    (h : q.tasks.get tid = none) : q.failTask tid err now = (false, q) := by
  simp [failTask, h]

theorem failTask_of_get_lt (q : TaskQueue) (tid err : String) (now : Int) (t : Task)
    (h : q.tasks.get tid = some t) (hlt : t.retryCount + 1 < 3) :
    q.failTask tid err now = (true,
      insertTaskByPriority
        { q with
          activeTasks := q.activeTasks.del tid,
          tasks := q.tasks.set tid { t with status := "pending", completedAt := some now, error := some err, retryCount := t.retryCount + 1, assignedAgent := none, assignedAt := none } } tid) := by
  simp [failTask, h, hlt]

theorem failTask_of_get_ge (q : TaskQueue) (tid err : String) (now : Int) (t : Task)
    (h : q.tasks.get tid = some t) (hge : ¬ t.retryCount + 1 < 3) :
    q.failTask tid err now = (true,
      { q with
        activeTasks := q.activeTasks.del tid,
        tasks := q.tasks.set tid { t with status := "failed", completedAt := some now, error := some err, retryCount := t.retryCount + 1 },
        taskHistory := addToHistory q.taskHistory { t with status := "failed", completedAt := some now, error := some err, retryCount := t.retryCount + 1 } }) := by
  simp [failTask, h, hge]

theorem qinv_empty : QInv emptyQueue := by
  constructor <;> simp [emptyQueue, JsMap.keys, JsMap.get]

theorem not_mem_of_get_none {q : TaskQueue} (inv : QInv q) {id : String}
    (h : q.tasks.get id = none) :
    id ∉ q.pendingTasks ∧ id ∉ q.activeTasks.keys ∧ id ∉ q.completedTasks.keys := by
  refine ⟨fun hmem => ?_, fun hmem => ?_, fun hmem => ?_⟩
  · have := inv.pending_known id hmem; rw [h] at this; simp at this
  · have := inv.active_known id hmem; rw [h] at this; simp at this
  · have := inv.completed_known id hmem; rw [h] at this; simp at this

theorem qinv_addTask (q : TaskQueue) (t : Task) (inv : QInv q)
    (hfresh : q.tasks.get t.id = none) : QInv (q.addTask t) := by
  obtain ⟨hnp, hna, hnc⟩ := not_mem_of_get_none inv hfresh
  have hget : ∀ id, (q.addTask t).tasks.get id =
      if id = t.id
      then some { t with status := "pending", assignedAgent := none,
                         assignedAt := none, completedAt := none, result := none }
      else q.tasks.get id := by
    intro id
    rw [addTask_tasks]
    by_cases hid : id = t.id
    · subst hid; rw [JsMap.get_set_self, if_pos rfl]
    · rw [JsMap.get_set_ne _ _ _ _ hid, if_neg hid]
  have hpend : ∀ id, id ∈ (q.addTask t).pendingTasks ↔ id = t.id ∨ id ∈ q.pendingTasks := by
    intro id; rw [addTask_pending]; exact mem_insertSorted _ _ _ _ _
  constructor
  · rw [addTask_tasks]; exact JsMap.keys_nodup_set _ _ _ inv.tasksNodup
  · rw [addTask_pending]; exact nodup_insertSorted _ _ _ _ inv.pendingNodup hnp
  · rw [addTask_active]; exact inv.activeNodup
  · rw [addTask_completed]; exact inv.completedNodup
  · intro id u hu
    rw [hget] at hu
    by_cases hid : id = t.id
    · rw [if_pos hid] at hu; cases hu; exact hid.symm
    · rw [if_neg hid] at hu; exact inv.idCoherent id u hu
  · intro id u hu
    rw [hget] at hu
    rw [hpend]
    by_cases hid : id = t.id
    · rw [if_pos hid] at hu; cases hu; simp [hid]
    · rw [if_neg hid] at hu
      rw [inv.pending_iff id u hu]
      simp [hid]
  · intro id u hu
    rw [hget] at hu
    rw [addTask_active]
    by_cases hid : id = t.id
    · rw [if_pos hid] at hu; cases hu
      subst hid
      constructor
      · intro hh
        have hh2 : ("pending" : String) = "assigned" := hh
        exact absurd hh2 (by decide)
      · intro hh; exact absurd hh hna
    · rw [if_neg hid] at hu; exact inv.active_iff id u hu
  · intro id u hu
    rw [hget] at hu
    rw [addTask_completed]
    by_cases hid : id = t.id
    · rw [if_pos hid] at hu; cases hu
      subst hid
      constructor
      · intro hh
        have hh2 : ("pending" : String) = "completed" := hh
        exact absurd hh2 (by decide)
      · intro hh; exact absurd hh hnc
    · rw [if_neg hid] at hu; exact inv.completed_iff id u hu
  · intro id hmem
    rw [hget]
    by_cases hid : id = t.id
    · rw [if_pos hid]; simp
    · rw [if_neg hid]
      rcases (hpend id).mp hmem with rfl | hmem2
      · exact absurd rfl hid
      · exact inv.pending_known id hmem2
  · intro id hmem
    rw [addTask_active] at hmem
    rw [hget]
    by_cases hid : id = t.id
    · rw [if_pos hid]; simp
    · rw [if_neg hid]; exact inv.active_known id hmem
  · intro id hmem
    rw [addTask_completed] at hmem
    rw [hget]
    by_cases hid : id = t.id
    · rw [if_pos hid]; simp
    · rw [if_neg hid]; exact inv.completed_known id hmem

theorem qinv_takeAssign (q : TaskQueue) (caps : List String) (aid : String) (now : Int)
    (t : Task) (q1 : TaskQueue) (inv : QInv q) (h : q.getNextTask caps = (some t, q1)) :
    QInv ((q1.assignTask t.id aid now).2) := by
  simp only [getNextTask, Prod.mk.injEq] at h
  obtain ⟨e1, e2⟩ := h
  obtain ⟨id0, l1, l2, hsplit, hrem, hgot, hcan, hpre⟩ :=
    getNextTaskAux_some q.tasks caps q.pendingTasks t e1
  have hid0 : t.id = id0 := inv.idCoherent id0 t hgot
  have hq1tasks : q1.tasks = q.tasks := by rw [← e2]
  have hq1pend : q1.pendingTasks = l1 ++ l2 := by rw [← e2]; exact hrem
  have hq1active : q1.activeTasks = q.activeTasks := by rw [← e2]
  have hq1completed : q1.completedTasks = q.completedTasks := by rw [← e2]
  have hget1 : q1.tasks.get t.id = some t := by rw [hq1tasks, hid0]; exact hgot
  rw [assignTask_of_get q1 t.id aid now t hget1]
  have hstatus : t.status = "pending" := by
    rw [inv.pending_iff id0 t hgot, hsplit]
    exact List.mem_append.mpr (Or.inr (List.mem_cons_self id0 l2))
  have hnotmem : id0 ∉ l1 ++ l2 := by
    have hn := inv.pendingNodup
    rw [hsplit] at hn
    have hn2 := (List.nodup_append.mp hn)
    intro hmem
    rcases List.mem_append.mp hmem with hm | hm
    · exact hn2.2.2 hm (List.mem_cons_self id0 l2)
    · exact (List.nodup_cons.mp hn2.2.1).1 hm
  have hnotacts : id0 ∉ q.activeTasks.keys := by
    intro hmem
    have := (inv.active_iff id0 t hgot).mpr hmem
    rw [hstatus] at this
    exact absurd this (by decide)
  have hnotcomp : id0 ∉ q.completedTasks.keys := by
    intro hmem
    have := (inv.completed_iff id0 t hgot).mpr hmem
    rw [hstatus] at this
    exact absurd this (by decide)
  have hget2 : ∀ id, (q1.tasks.set t.id { t with status := "assigned", assignedAgent := some aid, assignedAt := some now }).get id = if id = id0 then some { t with status := "assigned", assignedAgent := some aid, assignedAt := some now } else q.tasks.get id := by
    intro id
    rw [hq1tasks]
    by_cases hid : id = id0
    · subst hid; rw [← hid0, JsMap.get_set_self, if_pos rfl]
    · rw [JsMap.get_set_ne _ _ _ _ (by rw [hid0]; exact hid), if_neg hid]
  have hmemp : ∀ id, id ≠ id0 → (id ∈ l1 ++ l2 ↔ id ∈ q.pendingTasks) := by
    intro id hid
    rw [hsplit]
    constructor
    · intro hm
      rcases List.mem_append.mp hm with hm | hm
      · exact List.mem_append.mpr (Or.inl hm)
      · exact List.mem_append.mpr (Or.inr (List.mem_cons_of_mem id0 hm))
    · intro hm
      rcases List.mem_append.mp hm with hm | hm
      · exact List.mem_append.mpr (Or.inl hm)
      · rcases List.mem_cons.mp hm with rfl | hm
        · exact absurd rfl hid
        · exact List.mem_append.mpr (Or.inr hm)
  constructor
  · rw [hq1tasks]; exact JsMap.keys_nodup_set _ _ _ inv.tasksNodup
  · rw [hq1pend]
    have hn := inv.pendingNodup
    rw [hsplit] at hn
    exact hn.sublist (List.Sublist.append (List.Sublist.refl l1) (List.sublist_cons_self id0 l2))
  · rw [hq1active]; exact JsMap.keys_nodup_set _ _ _ inv.activeNodup
  · rw [hq1completed]; exact inv.completedNodup
  · intro id u hu
    rw [hget2] at hu
    by_cases hid : id = id0
    · rw [if_pos hid] at hu; cases hu; rw [hid0, hid]
    · rw [if_neg hid] at hu; exact inv.idCoherent id u hu
  · intro id u hu
    rw [hget2] at hu
    rw [hq1pend]
    by_cases hid : id = id0
    · rw [if_pos hid] at hu; cases hu
      subst hid
      constructor
      · intro hh
        exact absurd (show ("assigned" : String) = "pending" from hh) (by decide)
      · intro hmem; exact absurd hmem hnotmem
    · rw [if_neg hid] at hu
      rw [inv.pending_iff id u hu]
      exact (hmemp id hid).symm
  · intro id u hu
    rw [hget2] at hu
    rw [hq1active]
    by_cases hid : id = id0
    · rw [if_pos hid] at hu; cases hu
      subst hid
      constructor
      · intro hh
        rw [JsMap.mem_keys_set]
        exact Or.inl hid0.symm
      · intro hh; rfl
    · rw [if_neg hid] at hu
      rw [JsMap.mem_keys_set]
      rw [inv.active_iff id u hu]
      constructor
      · exact fun hh => Or.inr hh
      · rintro (rfl | hh)
        · exact absurd hid0 hid
        · exact hh
  · intro id u hu
    rw [hget2] at hu
    rw [hq1completed]
    by_cases hid : id = id0
    · rw [if_pos hid] at hu; cases hu
      subst hid
      constructor
      · intro hh
        exact absurd (show ("assigned" : String) = "completed" from hh) (by decide)
      · intro hmem; exact absurd hmem hnotcomp
    · rw [if_neg hid] at hu; exact inv.completed_iff id u hu
  · intro id hmem
    rw [hq1pend] at hmem
    rw [hget2]
    by_cases hid : id = id0
    · rw [if_pos hid]; simp
    · rw [if_neg hid]
      exact inv.pending_known id ((hmemp id hid).mp hmem)
  · intro id hmem
    rw [hq1active] at hmem
    rw [hget2]
    by_cases hid : id = id0
    · rw [if_pos hid]; simp
    · rw [if_neg hid]
      rcases (JsMap.mem_keys_set q.activeTasks t.id id aid).mp hmem with rfl | hmem2
      · exact absurd hid0 hid
      · exact inv.active_known id hmem2
  · intro id hmem
    rw [hq1completed] at hmem
    rw [hget2]
    by_cases hid : id = id0
    · rw [if_pos hid]; simp
    · rw [if_neg hid]; exact inv.completed_known id hmem

theorem qinv_complete (q : TaskQueue) (tid : String) (r : Option TaskResult) (now : Int)
    (t : Task) (inv : QInv q) (h : q.tasks.get tid = some t) (hs : t.status = "assigned") :
    QInv ((q.completeTask tid r now).2) := by
  rw [completeTask_of_get q tid r now t h]
  have hid : t.id = tid := inv.idCoherent tid t h
  have hnp : tid ∉ q.pendingTasks := by
    intro hmem
    have := (inv.pending_iff tid t h).mpr hmem
    rw [hs] at this
    exact absurd this (by decide)
  have hnc : tid ∉ q.completedTasks.keys := by
    intro hmem
    have := (inv.completed_iff tid t h).mpr hmem
    rw [hs] at this
    exact absurd this (by decide)
  have hget2 : ∀ id, (q.tasks.set tid { t with status := "completed", completedAt := some now, result := r }).get id = if id = tid then some { t with status := "completed", completedAt := some now, result := r } else q.tasks.get id := by
    intro id
    by_cases hid2 : id = tid
    · subst hid2; rw [JsMap.get_set_self, if_pos rfl]
    · rw [JsMap.get_set_ne _ _ _ _ hid2, if_neg hid2]
  constructor
  · exact JsMap.keys_nodup_set _ _ _ inv.tasksNodup
  · exact inv.pendingNodup
  · exact JsMap.keys_nodup_del _ _ inv.activeNodup
  · exact JsMap.keys_nodup_set _ _ _ inv.completedNodup
  · intro id u hu
    rw [hget2] at hu
    by_cases hid2 : id = tid
    · rw [if_pos hid2] at hu; cases hu; rw [hid, hid2]
    · rw [if_neg hid2] at hu; exact inv.idCoherent id u hu
  · intro id u hu
    rw [hget2] at hu
    by_cases hid2 : id = tid
    · rw [if_pos hid2] at hu; cases hu
      subst hid2
      constructor
      · intro hh
        exact absurd (show ("completed" : String) = "pending" from hh) (by decide)
      · intro hmem; exact absurd hmem hnp
    · rw [if_neg hid2] at hu; exact inv.pending_iff id u hu
  · intro id u hu
    rw [hget2] at hu
    by_cases hid2 : id = tid
    · rw [if_pos hid2] at hu; cases hu
      subst hid2
      constructor
      · intro hh
        exact absurd (show ("completed" : String) = "assigned" from hh) (by decide)
      · intro hmem
        exact absurd hmem (JsMap.not_mem_keys_del_self _ _ inv.activeNodup)
    · rw [if_neg hid2] at hu
      rw [JsMap.mem_keys_del_ne _ _ _ hid2]
      exact inv.active_iff id u hu
  · intro id u hu
    rw [hget2] at hu
    by_cases hid2 : id = tid
    · rw [if_pos hid2] at hu; cases hu
      subst hid2
      constructor
      · intro hh
        rw [JsMap.mem_keys_set]
        exact Or.inl rfl
      · intro hh; rfl
    · rw [if_neg hid2] at hu
      rw [JsMap.mem_keys_set]
      rw [inv.completed_iff id u hu]
      constructor
      · exact fun hh => Or.inr hh
      · rintro (rfl | hh)
        · exact absurd rfl hid2
        · exact hh
  · intro id hmem
    rw [hget2]
    by_cases hid2 : id = tid
    · rw [if_pos hid2]; simp
    · rw [if_neg hid2]; exact inv.pending_known id hmem
  · intro id hmem
    rw [hget2]
    by_cases hid2 : id = tid
    · rw [if_pos hid2]; simp
    · rw [if_neg hid2]
      exact inv.active_known id ((JsMap.keys_del_sublist _ _).subset hmem)
  · intro id hmem
    rw [hget2]
    by_cases hid2 : id = tid
    · rw [if_pos hid2]; simp
    · rw [if_neg hid2]
      rcases (JsMap.mem_keys_set q.completedTasks tid id r).mp hmem with rfl | hmem2
      · exact absurd rfl hid2
      · exact inv.completed_known id hmem2

theorem qinv_fail (q : TaskQueue) (tid err : String) (now : Int)
    (t : Task) (inv : QInv q) (h : q.tasks.get tid = some t) (hs : t.status = "assigned") :
    QInv ((q.failTask tid err now).2) := by
  have hid : t.id = tid := inv.idCoherent tid t h
  have hnp : tid ∉ q.pendingTasks := by
    intro hmem
    have := (inv.pending_iff tid t h).mpr hmem
    rw [hs] at this
    exact absurd this (by decide)
  have hnc : tid ∉ q.completedTasks.keys := by
    intro hmem
    have := (inv.completed_iff tid t h).mpr hmem
    rw [hs] at this
    exact absurd this (by decide)
  by_cases hlt : t.retryCount + 1 < 3
  · rw [failTask_of_get_lt q tid err now t h hlt]
    simp only [insertTaskByPriority]
    have hget2 : ∀ id, (q.tasks.set tid { t with status := "pending", completedAt := some now, error := some err, retryCount := t.retryCount + 1, assignedAgent := none, assignedAt := none }).get id = if id = tid then some { t with status := "pending", completedAt := some now, error := some err, retryCount := t.retryCount + 1, assignedAgent := none, assignedAt := none } else q.tasks.get id := by
      intro id
      by_cases hid2 : id = tid
      · subst hid2; rw [JsMap.get_set_self, if_pos rfl]
      · rw [JsMap.get_set_ne _ _ _ _ hid2, if_neg hid2]
    constructor
    · exact JsMap.keys_nodup_set _ _ _ inv.tasksNodup
    · exact nodup_insertSorted _ _ _ _ inv.pendingNodup hnp
    · exact JsMap.keys_nodup_del _ _ inv.activeNodup
    · exact inv.completedNodup
    · intro id u hu
      rw [hget2] at hu
      by_cases hid2 : id = tid
      · rw [if_pos hid2] at hu; cases hu; rw [hid, hid2]
      · rw [if_neg hid2] at hu; exact inv.idCoherent id u hu
    · intro id u hu
      rw [hget2] at hu
      rw [mem_insertSorted]
      by_cases hid2 : id = tid
      · rw [if_pos hid2] at hu; cases hu
        subst hid2
        simp
      · rw [if_neg hid2] at hu
        rw [inv.pending_iff id u hu]
        simp [hid2]
    · intro id u hu
      rw [hget2] at hu
      by_cases hid2 : id = tid
      · rw [if_pos hid2] at hu; cases hu
        subst hid2
        constructor
        · intro hh
          exact absurd (show ("pending" : String) = "assigned" from hh) (by decide)
        · intro hmem
          exact absurd hmem (JsMap.not_mem_keys_del_self _ _ inv.activeNodup)
      · rw [if_neg hid2] at hu
        rw [JsMap.mem_keys_del_ne _ _ _ hid2]
        exact inv.active_iff id u hu
    · intro id u hu
      rw [hget2] at hu
      by_cases hid2 : id = tid
      · rw [if_pos hid2] at hu; cases hu
        subst hid2
        constructor
        · intro hh
          exact absurd (show ("pending" : String) = "completed" from hh) (by decide)
        · intro hmem; exact absurd hmem hnc
      · rw [if_neg hid2] at hu; exact inv.completed_iff id u hu
    · intro id hmem
      rw [hget2]
      by_cases hid2 : id = tid
      · rw [if_pos hid2]; simp
      · rw [if_neg hid2]
        rcases (mem_insertSorted _ _ _ _ _).mp hmem with rfl | hmem2
        · exact absurd rfl hid2
        · exact inv.pending_known id hmem2
    · intro id hmem
      rw [hget2]
      by_cases hid2 : id = tid
      · rw [if_pos hid2]; simp
      · rw [if_neg hid2]
        exact inv.active_known id ((JsMap.keys_del_sublist _ _).subset hmem)
    · intro id hmem
      rw [hget2]
      by_cases hid2 : id = tid
      · rw [if_pos hid2]; simp
      · rw [if_neg hid2]; exact inv.completed_known id hmem
  · rw [failTask_of_get_ge q tid err now t h hlt]
    have hget2 : ∀ id, (q.tasks.set tid { t with status := "failed", completedAt := some now, error := some err, retryCount := t.retryCount + 1 }).get id = if id = tid then some { t with status := "failed", completedAt := some now, error := some err, retryCount := t.retryCount + 1 } else q.tasks.get id := by
      intro id
      by_cases hid2 : id = tid
      · subst hid2; rw [JsMap.get_set_self, if_pos rfl]
      · rw [JsMap.get_set_ne _ _ _ _ hid2, if_neg hid2]
    constructor
    · exact JsMap.keys_nodup_set _ _ _ inv.tasksNodup
    · exact inv.pendingNodup
    · exact JsMap.keys_nodup_del _ _ inv.activeNodup
    · exact inv.completedNodup
    · intro id u hu
      rw [hget2] at hu
      by_cases hid2 : id = tid
      · rw [if_pos hid2] at hu; cases hu; rw [hid, hid2]
      · rw [if_neg hid2] at hu; exact inv.idCoherent id u hu
    · intro id u hu
      rw [hget2] at hu
      by_cases hid2 : id = tid
      · rw [if_pos hid2] at hu; cases hu
        subst hid2
        constructor
        · intro hh
          exact absurd (show ("failed" : String) = "pending" from hh) (by decide)
        · intro hmem; exact absurd hmem hnp
      · rw [if_neg hid2] at hu; exact inv.pending_iff id u hu
    · intro id u hu
      rw [hget2] at hu
      by_cases hid2 : id = tid
      · rw [if_pos hid2] at hu; cases hu
        subst hid2
        constructor
        · intro hh
          exact absurd (show ("failed" : String) = "assigned" from hh) (by decide)
        · intro hmem
          exact absurd hmem (JsMap.not_mem_keys_del_self _ _ inv.activeNodup)
      · rw [if_neg hid2] at hu
        rw [JsMap.mem_keys_del_ne _ _ _ hid2]
        exact inv.active_iff id u hu
    · intro id u hu
      rw [hget2] at hu
      by_cases hid2 : id = tid
      · rw [if_pos hid2] at hu; cases hu
        subst hid2
        constructor
        · intro hh
          exact absurd (show ("failed" : String) = "completed" from hh) (by decide)
        · intro hmem; exact absurd hmem hnc
      · rw [if_neg hid2] at hu; exact inv.completed_iff id u hu
    · intro id hmem
      rw [hget2]
      by_cases hid2 : id = tid
      · rw [if_pos hid2]; simp
      · rw [if_neg hid2]; exact inv.pending_known id hmem
    · intro id hmem
      rw [hget2]
      by_cases hid2 : id = tid
      · rw [if_pos hid2]; simp
      · rw [if_neg hid2]
        exact inv.active_known id ((JsMap.keys_del_sublist _ _).subset hmem)
    · intro id hmem
      rw [hget2]
      by_cases hid2 : id = tid
      · rw [if_pos hid2]; simp
      · rw [if_neg hid2]; exact inv.completed_known id hmem

theorem cleanupDead_false_of_status {t : Task} (cutoff : Int)
    (h : ¬ t.status = "completed") : cleanupDead cutoff t = false := by
  simp [cleanupDead, h]

theorem qinv_cleanup (q : TaskQueue) (now : Int) (inv : QInv q) : QInv (q.cleanup now) := by
  simp only [cleanup]
  have hget2 : ∀ id, JsMap.get (List.filter (fun p => ! cleanupDead (now - 24 * 60 * 60 * 1000) p.2) q.tasks) id = (q.tasks.get id).bind (fun v => if ! cleanupDead (now - 24 * 60 * 60 * 1000) v then some v else none) := by
    intro id
    exact JsMap.get_filter q.tasks _ id inv.tasksNodup
  have hget3 : ∀ id u, JsMap.get (List.filter (fun p => ! cleanupDead (now - 24 * 60 * 60 * 1000) p.2) q.tasks) id = some u ↔ q.tasks.get id = some u ∧ cleanupDead (now - 24 * 60 * 60 * 1000) u = false := by
    intro id u
    rw [hget2]
    rcases hq : q.tasks.get id with _ | v
    · simp
    · simp only [Option.some_bind]
      by_cases hd : cleanupDead (now - 24 * 60 * 60 * 1000) v = true
      · rw [hd, if_neg (by simp)]
        constructor
        · intro hh; exact Option.noConfusion hh
        · rintro ⟨hh, hdu⟩
          cases hh
          rw [hd] at hdu
          exact Bool.noConfusion hdu
      · have hdf : cleanupDead (now - 24 * 60 * 60 * 1000) v = false := by simpa using hd
        rw [hdf, if_pos (by simp)]
        constructor
        · intro hh
          cases hh
          exact ⟨rfl, hdf⟩
        · rintro ⟨hh, hdu⟩
          exact hh
  constructor
  · exact inv.tasksNodup.sublist (JsMap.keys_filter_sublist _ _)
  · exact inv.pendingNodup
  · exact inv.activeNodup
  · exact inv.completedNodup.sublist (JsMap.keys_filter_sublist _ _)
  · intro id u hu
    obtain ⟨hold, hdead⟩ := (hget3 id u).mp hu
    exact inv.idCoherent id u hold
  · intro id u hu
    obtain ⟨hold, hdead⟩ := (hget3 id u).mp hu
    exact inv.pending_iff id u hold
  · intro id u hu
    obtain ⟨hold, hdead⟩ := (hget3 id u).mp hu
    exact inv.active_iff id u hold
  · intro id u hu
    obtain ⟨hold, hdead⟩ := (hget3 id u).mp hu
    rw [JsMap.mem_keys_filter _ _ _ inv.completedNodup]
    rw [inv.completed_iff id u hold]
    constructor
    · intro hmem
      obtain ⟨v, hv⟩ := Option.isSome_iff_exists.mp ((JsMap.isSome_get_iff _ _).mpr hmem)
      refine ⟨v, hv, ?_⟩
      rw [hold]
      simpa using hdead
    · rintro ⟨v, hv, hp⟩
      rw [← JsMap.isSome_get_iff, hv]
      simp
  · intro id hmem
    have hks := inv.pending_known id hmem
    obtain ⟨t, ht⟩ := Option.isSome_iff_exists.mp hks
    have hstat : t.status = "pending" := (inv.pending_iff id t ht).mpr hmem
    have hdead : cleanupDead (now - 24 * 60 * 60 * 1000) t = false :=
      cleanupDead_false_of_status _ (by rw [hstat]; decide)
    rw [(hget3 id t).mpr ⟨ht, hdead⟩]
    simp
  · intro id hmem
    have hks := inv.active_known id hmem
    obtain ⟨t, ht⟩ := Option.isSome_iff_exists.mp hks
    have hstat : t.status = "assigned" := (inv.active_iff id t ht).mpr hmem
    have hdead : cleanupDead (now - 24 * 60 * 60 * 1000) t = false :=
      cleanupDead_false_of_status _ (by rw [hstat]; decide)
    rw [(hget3 id t).mpr ⟨ht, hdead⟩]
    simp
  · intro id hmem
    rw [JsMap.mem_keys_filter _ _ _ inv.completedNodup] at hmem
    obtain ⟨v, hv, hp⟩ := hmem
    have hks := inv.completed_known id (by rw [← JsMap.isSome_get_iff, hv]; simp)
    obtain ⟨t, ht⟩ := Option.isSome_iff_exists.mp hks
    rw [ht] at hp
    have hdead : cleanupDead (now - 24 * 60 * 60 * 1000) t = false := by
      simpa using hp
    rw [(hget3 id t).mpr ⟨ht, hdead⟩]
    simp

theorem qstep_inv {q q' : TaskQueue} (inv : QInv q) (h : QStep q q') : QInv q' := by
  cases h with
  | add t h => exact qinv_addTask q t inv h
  | takeAssign caps aid now t q1 h => exact qinv_takeAssign q caps aid now t q1 inv h
  | complete tid r now t h hs => exact qinv_complete q tid r now t inv h hs
  | fail tid err now t h hs => exact qinv_fail q tid err now t inv h hs
  | sweep now => exact qinv_cleanup q now inv

theorem qreach_inv {q : TaskQueue} (h : QReach q) : QInv q := by
  induction h with
  | init => exact qinv_empty
  | step hr hs ih => exact qstep_inv ih hs

theorem qinv_count (q : TaskQueue) (inv : QInv q) :
    q.pendingTasks.length + q.activeTasks.size + q.completedTasks.size ≤ q.tasks.size := by
  have hPA : q.pendingTasks.Disjoint q.activeTasks.keys := by
    intro a haP haA
    obtain ⟨t, ht⟩ := Option.isSome_iff_exists.mp (inv.pending_known a haP)
    have h1 := (inv.pending_iff a t ht).mpr haP
    have h2 := (inv.active_iff a t ht).mpr haA
    rw [h1] at h2
    exact absurd h2 (by decide)
  have hPC : q.pendingTasks.Disjoint q.completedTasks.keys := by
    intro a haP haC
    obtain ⟨t, ht⟩ := Option.isSome_iff_exists.mp (inv.pending_known a haP)
    have h1 := (inv.pending_iff a t ht).mpr haP
    have h2 := (inv.completed_iff a t ht).mpr haC
    rw [h1] at h2
    exact absurd h2 (by decide)
  have hAC : q.activeTasks.keys.Disjoint q.completedTasks.keys := by
    intro a haA haC
    obtain ⟨t, ht⟩ := Option.isSome_iff_exists.mp (inv.active_known a haA)
    have h1 := (inv.active_iff a t ht).mpr haA
    have h2 := (inv.completed_iff a t ht).mpr haC
    rw [h1] at h2
    exact absurd h2 (by decide)
  have hnodup : (q.pendingTasks ++ (q.activeTasks.keys ++ q.completedTasks.keys)).Nodup := by
    refine List.Nodup.append inv.pendingNodup
      (List.Nodup.append inv.activeNodup inv.completedNodup hAC) ?_
    intro a haP haAC
    rcases List.mem_append.mp haAC with hm | hm
    · exact hPA haP hm
    · exact hPC haP hm
  have hsub : (q.pendingTasks ++ (q.activeTasks.keys ++ q.completedTasks.keys)) ⊆
      q.tasks.keys := by
    intro a ha
    rw [← JsMap.isSome_get_iff]
    rcases List.mem_append.mp ha with hm | hm
    · exact inv.pending_known a hm
    · rcases List.mem_append.mp hm with hm2 | hm2
      · exact inv.active_known a hm2
      · exact inv.completed_known a hm2
  have hle := (hnodup.subperm hsub).length_le
  simp only [List.length_append] at hle
  have hkeys : q.tasks.keys.length = q.tasks.size := by
    simp [JsMap.keys, JsMap.size]
  have hA : q.activeTasks.keys.length = q.activeTasks.size := by
    simp [JsMap.keys, JsMap.size]
  have hC : q.completedTasks.keys.length = q.completedTasks.size := by
    simp [JsMap.keys, JsMap.size]
  omega

theorem cleanup_get (q : TaskQueue) (now : Int) (id : String) (u : Task)
    (hN : q.tasks.keys.Nodup) :
    (q.cleanup now).tasks.get id = some u ↔
      q.tasks.get id = some u ∧ cleanupDead (now - 24 * 60 * 60 * 1000) u = false := by
  simp only [cleanup]
  rw [JsMap.get_filter q.tasks _ id hN]
  rcases hq : q.tasks.get id with _ | v
  · simp
  · simp only [Option.some_bind]
    by_cases hd : cleanupDead (now - 24 * 60 * 60 * 1000) v = true
    · rw [hd, if_neg (by simp)]
      constructor
      · intro hh; exact Option.noConfusion hh
      · rintro ⟨hh, hdu⟩
        cases hh
        rw [hd] at hdu
        exact Bool.noConfusion hdu
    · have hdf : cleanupDead (now - 24 * 60 * 60 * 1000) v = false := by simpa using hd
      rw [hdf, if_pos (by simp)]
      constructor
      · intro hh
        cases hh
        exact ⟨rfl, hdf⟩
      · rintro ⟨hh, hdu⟩
        exact hh

theorem getNextTaskAux_snd_subset (tasks : JsMap Task) (caps : List String)
    (l : List String) : ∀ a ∈ (getNextTaskAux tasks caps l).2, a ∈ l := by
  induction l with
  | nil => simp [getNextTaskAux]
  | cons id rest ih =>
    intro a ha
    rcases hget : tasks.get id with _ | u
    · simp only [getNextTaskAux, hget] at ha
      rcases List.mem_cons.mp ha with rfl | ha
      · exact List.mem_cons_self a rest
      · exact List.mem_cons_of_mem id (ih a ha)
    · by_cases hcan : canAgentHandleTask u caps
      · simp only [getNextTaskAux, hget, hcan, if_pos] at ha
        exact List.mem_cons_of_mem id ha
      · simp only [getNextTaskAux, hget, hcan, Bool.false_eq_true, if_neg] at ha
        rcases List.mem_cons.mp ha with rfl | ha
        · exact List.mem_cons_self a rest
        · exact List.mem_cons_of_mem id (ih a ha)

theorem permfail_preserved {q q' : TaskQueue} {id : String} {t : Task}
    (hstep : QAnyStep q q') (hN : q.tasks.keys.Nodup)
    (ht : q.tasks.get id = some t) (hretry : 3 ≤ t.retryCount)
    (hnp : id ∉ q.pendingTasks) :
    q'.tasks.keys.Nodup ∧ id ∉ q'.pendingTasks ∧
      (∀ u, q'.tasks.get id = some u → 3 ≤ u.retryCount) := by
  cases hstep with
  | add t0 h =>
    have hne : id ≠ t0.id := by
      intro hh
      rw [← hh, ht] at h
      exact Option.noConfusion h
    refine ⟨?_, ?_, ?_⟩
    · rw [addTask_tasks]; exact JsMap.keys_nodup_set _ _ _ hN
    · rw [addTask_pending]
      intro hmem
      rcases (mem_insertSorted _ _ _ _ _).mp hmem with hh | hmem2
      · exact hne hh
      · exact hnp hmem2
    · intro u hu
      rw [addTask_tasks, JsMap.get_set_ne _ _ _ _ hne, ht] at hu
      cases hu
      exact hretry
  | next caps =>
    refine ⟨hN, ?_, ?_⟩
    · intro hmem
      simp only [getNextTask] at hmem
      exact hnp (getNextTaskAux_snd_subset q.tasks caps q.pendingTasks id hmem)
    · intro u hu
      simp only [getNextTask] at hu
      rw [ht] at hu
      cases hu
      exact hretry
  | assign tid aid now =>
    rcases hq : q.tasks.get tid with _ | v
    · rw [assignTask_of_none q tid aid now hq]
      exact ⟨hN, hnp, fun u hu => by rw [ht] at hu; cases hu; exact hretry⟩
    · rw [assignTask_of_get q tid aid now v hq]
      refine ⟨JsMap.keys_nodup_set _ _ _ hN, hnp, ?_⟩
      intro u hu
      by_cases hid : id = tid
      · subst hid
        rw [JsMap.get_set_self] at hu
        cases hu
        rw [ht] at hq
        cases hq
        exact hretry
      · rw [JsMap.get_set_ne _ _ _ _ hid, ht] at hu
        cases hu
        exact hretry
  | complete tid r now =>
    rcases hq : q.tasks.get tid with _ | v
    · rw [completeTask_of_none q tid r now hq]
      exact ⟨hN, hnp, fun u hu => by rw [ht] at hu; cases hu; exact hretry⟩
    · rw [completeTask_of_get q tid r now v hq]
      refine ⟨JsMap.keys_nodup_set _ _ _ hN, hnp, ?_⟩
      intro u hu
      by_cases hid : id = tid
      · subst hid
        rw [JsMap.get_set_self] at hu
        cases hu
        rw [ht] at hq
        cases hq
        exact hretry
      · rw [JsMap.get_set_ne _ _ _ _ hid, ht] at hu
        cases hu
        exact hretry
  | fail tid err now =>
    rcases hq : q.tasks.get tid with _ | v
    · rw [failTask_of_none q tid err now hq]
      exact ⟨hN, hnp, fun u hu => by rw [ht] at hu; cases hu; exact hretry⟩
    · by_cases hid : id = tid
      · subst hid
        rw [ht] at hq
        cases hq
        have hge : ¬ t.retryCount + 1 < 3 := by omega
        rw [failTask_of_get_ge q id err now t ht hge]
        refine ⟨JsMap.keys_nodup_set _ _ _ hN, hnp, ?_⟩
        intro u hu
        rw [JsMap.get_set_self] at hu
        cases hu
        exact Nat.le_succ_of_le hretry
      · by_cases hlt : v.retryCount + 1 < 3
        · rw [failTask_of_get_lt q tid err now v hq hlt]
          simp only [insertTaskByPriority]
          refine ⟨JsMap.keys_nodup_set _ _ _ hN, ?_, ?_⟩
          · intro hmem
            rcases (mem_insertSorted _ _ _ _ _).mp hmem with hh | hmem2
            · exact hid hh
            · exact hnp hmem2
          · intro u hu
            rw [JsMap.get_set_ne _ _ _ _ hid, ht] at hu
            cases hu
            exact hretry
        · rw [failTask_of_get_ge q tid err now v hq hlt]
          refine ⟨JsMap.keys_nodup_set _ _ _ hN, hnp, ?_⟩
          intro u hu
          rw [JsMap.get_set_ne _ _ _ _ hid, ht] at hu
          cases hu
          exact hretry
  | sweep now =>
    refine ⟨?_, hnp, ?_⟩
    · simp only [cleanup]
      exact hN.sublist (JsMap.keys_filter_sublist _ _)
    · intro u hu
      obtain ⟨hold, hdead⟩ := (cleanup_get q now id u hN).mp hu
      rw [ht] at hold
      cases hold
      exact hretry

end TaskQueue

theorem mem_setAdd (s : List String) (x a : String) :
    a ∈ setAdd s x ↔ a = x ∨ a ∈ s := by
  by_cases h : x ∈ s
  · simp only [setAdd, if_pos h]
    constructor
    · exact fun hh => Or.inr hh
    · rintro (rfl | hh)
      · exact h
      · exact hh
  · simp [setAdd, if_neg h, List.mem_append, or_comm]

theorem nodup_setAdd (s : List String) (x : String) (h : s.Nodup) :
    (setAdd s x).Nodup := by
  by_cases hx : x ∈ s
  · simpa [setAdd, if_pos hx] using h
  · simp only [setAdd, if_neg hx]
    rw [List.nodup_append]
    refine ⟨h, List.nodup_singleton x, ?_⟩
    intro a ha hax
    rw [List.mem_singleton] at hax
    subst hax
    exact hx ha

theorem setAdd_ne_nil (s : List String) (x : String) : setAdd s x ≠ [] := by
  by_cases hx : x ∈ s
  · simp only [setAdd, if_pos hx]
    intro hh
    rw [hh] at hx
    exact absurd hx (List.not_mem_nil x)
  · simp [setAdd, if_neg hx]

theorem setAdd_idem (s : List String) (x : String) : setAdd (setAdd s x) x = setAdd s x := by
  have hx : x ∈ setAdd s x := (mem_setAdd s x x).mpr (Or.inl rfl)
  generalize hg : setAdd s x = t at hx
  simp [setAdd, hx]

theorem get_of_mem_nodup {α : Type} (m : JsMap α) (k : String) (v : α)
    (hN : m.keys.Nodup) (h : (k, v) ∈ m) : m.get k = some v := by
  induction m with
  | nil => exact absurd h (List.not_mem_nil _)
  | cons hd tl ih =>
    obtain ⟨hk, hv⟩ := hd
    simp only [JsMap.keys, List.map_cons, List.nodup_cons] at hN
    rcases List.mem_cons.mp h with hh | hh
    · cases hh
      simp [JsMap.get]
    · have hne : hk ≠ k := by
        intro hkk
        subst hkk
        exact hN.1 (List.mem_map.mpr ⟨(hk, v), hh, rfl⟩)
      simp only [JsMap.get, if_neg hne]
      exact ih hN.2 hh

namespace AgentManager

theorem addAgent_capabilities (m : AgentManager) (a : Agent) :
    (m.addAgent a).capabilities = a.capabilities.foldl (addCapStep a.id) m.capabilities := rfl

theorem addCapStep_get (aid : String) (idx : JsMap (List String)) (x c : String) :
    (addCapStep aid idx x).get c =
      if c = x then some (setAdd ((idx.get x).getD []) aid) else idx.get c := by
  rcases hx : idx.get x with _ | s
  · have hstep : addCapStep aid idx x = idx.set x [aid] := by
      simp [addCapStep, hx]
    rw [hstep]
    by_cases hc : c = x
    · subst hc
      rw [JsMap.get_set_self, if_pos rfl]
      simp [setAdd]
    · rw [JsMap.get_set_ne _ _ _ _ hc, if_neg hc]
  · have hstep : addCapStep aid idx x = idx.set x (setAdd s aid) := by
      simp [addCapStep, hx]
    rw [hstep]
    by_cases hc : c = x
    · subst hc
      rw [JsMap.get_set_self, if_pos rfl]
      simp
    · rw [JsMap.get_set_ne _ _ _ _ hc, if_neg hc]

theorem addCapStep_keysNodup (aid : String) (idx : JsMap (List String)) (x : String)
    (hN : idx.keys.Nodup) : (addCapStep aid idx x).keys.Nodup := by
  rcases hx : idx.get x with _ | s
  · have hstep : addCapStep aid idx x = idx.set x [aid] := by simp [addCapStep, hx]
    rw [hstep]
    exact JsMap.keys_nodup_set _ _ _ hN
  · have hstep : addCapStep aid idx x = idx.set x (setAdd s aid) := by simp [addCapStep, hx]
    rw [hstep]
    exact JsMap.keys_nodup_set _ _ _ hN

theorem addCaps_fold_get (aid : String) (caps : List String) :
    ∀ (idx : JsMap (List String)) (c : String),
      (caps.foldl (addCapStep aid) idx).get c =
        if c ∈ caps then some (setAdd ((idx.get c).getD []) aid) else idx.get c := by
  induction caps with
  | nil => intro idx c; simp
  | cons x xs ih =>
    intro idx c
    rw [List.foldl_cons, ih]
    by_cases hcx : c = x
    · subst hcx
      by_cases hmem : c ∈ xs
      · rw [if_pos hmem, if_pos (List.mem_cons_self c xs), addCapStep_get, if_pos rfl]
        simp [setAdd_idem]
      · rw [if_neg hmem, if_pos (List.mem_cons_self c xs), addCapStep_get, if_pos rfl]
    · rw [addCapStep_get, if_neg hcx]
      by_cases hmem : c ∈ xs
      · rw [if_pos hmem, if_pos (List.mem_cons_of_mem x hmem)]
      · rw [if_neg hmem, if_neg (by simp [hcx, hmem])]

theorem addCaps_fold_keysNodup (aid : String) (caps : List String) :
    ∀ idx : JsMap (List String), idx.keys.Nodup →
      (caps.foldl (addCapStep aid) idx).keys.Nodup := by
  induction caps with
  | nil => intro idx h; simpa using h
  | cons x xs ih =>
    intro idx h
    rw [List.foldl_cons]
    exact ih _ (addCapStep_keysNodup aid idx x h)

theorem removeAgent_of_find_none (m : AgentManager) (ws : Nat)
    (h : m.agents.find? (fun p => p.2.ws = ws) = none) : m.removeAgent ws = m := by
  simp [removeAgent, h]

theorem removeAgent_of_find_some (m : AgentManager) (ws : Nat) (id0 : String) (ag : Agent)
    (h : m.agents.find? (fun p => p.2.ws = ws) = some (id0, ag)) :
    m.removeAgent ws =
      { agents := m.agents.del id0,
        capabilities := ag.capabilities.foldl (removeCapStep id0) m.capabilities } := by
  simp only [removeAgent, removeCapStep]
  rw [h]
  exact rfl

theorem removeCapStep_get (aid : String) (idx : JsMap (List String)) (x c : String)
    (hN : idx.keys.Nodup) :
    (removeCapStep aid idx x).get c =
      if c = x then rmApply aid (idx.get x) else idx.get c := by
  rcases hx : idx.get x with _ | s
  · have hstep : removeCapStep aid idx x = idx := by simp [removeCapStep, hx]
    rw [hstep]
    by_cases hc : c = x
    · subst hc; rw [if_pos rfl, hx]; rfl
    · rw [if_neg hc]
  · by_cases he : (s.erase aid).isEmpty
    · have hstep : removeCapStep aid idx x = idx.del x := by simp [removeCapStep, hx, he]
      rw [hstep]
      by_cases hc : c = x
      · subst hc
        rw [if_pos rfl, JsMap.get_del_self _ _ hN]
        simp only [rmApply]
        rw [if_pos he]
      · rw [JsMap.get_del_ne _ _ _ hc, if_neg hc]
    · have hstep : removeCapStep aid idx x = idx.set x (s.erase aid) := by
        simp [removeCapStep, hx, he]
      rw [hstep]
      by_cases hc : c = x
      · subst hc
        rw [JsMap.get_set_self, if_pos rfl]
        simp only [rmApply]
        rw [if_neg he]
      · rw [JsMap.get_set_ne _ _ _ _ hc, if_neg hc]

theorem removeCapStep_keysNodup (aid : String) (idx : JsMap (List String)) (x : String)
    (hN : idx.keys.Nodup) : (removeCapStep aid idx x).keys.Nodup := by
  rcases hx : idx.get x with _ | s
  · have hstep : removeCapStep aid idx x = idx := by simp [removeCapStep, hx]
    rw [hstep]; exact hN
  · by_cases he : (s.erase aid).isEmpty
    · have hstep : removeCapStep aid idx x = idx.del x := by simp [removeCapStep, hx, he]
      rw [hstep]
      exact JsMap.keys_nodup_del _ _ hN
    · have hstep : removeCapStep aid idx x = idx.set x (s.erase aid) := by
        simp [removeCapStep, hx, he]
      rw [hstep]
      exact JsMap.keys_nodup_set _ _ _ hN

theorem rmApply_some {aid : String} {o : Option (List String)} {s' : List String}
    (h : rmApply aid o = some s') :
    ∃ s, o = some s ∧ s' = s.erase aid ∧ ¬ (s.erase aid).isEmpty := by
  rcases o with _ | s
  · exact Option.noConfusion h
  · simp only [rmApply] at h
    by_cases he : (s.erase aid).isEmpty
    · rw [if_pos he] at h; exact Option.noConfusion h
    · rw [if_neg he] at h
      cases h
      exact ⟨s, rfl, rfl, he⟩

theorem rmApply_idem (aid : String) (o : Option (List String))
    (hnd : ∀ s, o = some s → s.Nodup) : rmApply aid (rmApply aid o) = rmApply aid o := by
  rcases o with _ | s
  · rfl
  · simp only [rmApply]
    by_cases he : (s.erase aid).isEmpty
    · rw [if_pos he]
    · rw [if_neg he]
      simp only [rmApply]
      have hnm : aid ∉ (s.erase aid) := by
        intro hmem
        have := ((hnd s rfl).mem_erase_iff).mp hmem
        exact this.1 rfl
      rw [List.erase_of_not_mem hnm, if_neg he]

theorem removeCaps_fold (aid : String) (caps : List String) :
    ∀ idx : JsMap (List String), idx.keys.Nodup → (∀ c s, idx.get c = some s → s.Nodup) →
      (caps.foldl (removeCapStep aid) idx).keys.Nodup ∧
      (∀ c s, (caps.foldl (removeCapStep aid) idx).get c = some s → s.Nodup) ∧
      (∀ c, (caps.foldl (removeCapStep aid) idx).get c =
        if c ∈ caps then rmApply aid (idx.get c) else idx.get c) := by
  induction caps with
  | nil =>
    intro idx hN hB
    exact ⟨hN, hB, by intro c; simp⟩
  | cons x xs ih =>
    intro idx hN hB
    rw [List.foldl_cons]
    have hN1 : (removeCapStep aid idx x).keys.Nodup := removeCapStep_keysNodup aid idx x hN
    have hB1 : ∀ c s, (removeCapStep aid idx x).get c = some s → s.Nodup := by
      intro c s hcs
      rw [removeCapStep_get aid idx x c hN] at hcs
      by_cases hc : c = x
      · rw [if_pos hc] at hcs
        obtain ⟨s0, hs0, hsplit, _⟩ := rmApply_some hcs
        rw [hsplit]
        exact (hB x s0 hs0).erase aid
      · rw [if_neg hc] at hcs
        exact hB c s hcs
    obtain ⟨hN2, hB2, hget2⟩ := ih (removeCapStep aid idx x) hN1 hB1
    refine ⟨hN2, hB2, ?_⟩
    intro c
    rw [hget2 c, removeCapStep_get aid idx x c hN]
    by_cases hcx : c = x
    · subst hcx
      by_cases hmem : c ∈ xs
      · rw [if_pos hmem, if_pos rfl, if_pos (List.mem_cons_self c xs)]
        exact rmApply_idem aid (idx.get c) (fun s hs => hB c s hs)
      · rw [if_neg hmem, if_pos rfl, if_pos (List.mem_cons_self c xs)]
    · rw [if_neg hcx]
      by_cases hmem : c ∈ xs
      · rw [if_pos hmem, if_pos (List.mem_cons_of_mem x hmem)]
      · rw [if_neg hmem, if_neg (by simp [hcx, hmem])]

end AgentManager

theorem ainv_empty : AInv emptyManager := by
  constructor <;> simp [emptyManager, JsMap.keys, JsMap.get]

theorem ainv_add (m : AgentManager) (a : Agent) (inv : AInv m)
    (hfresh : m.agents.get a.id = none) : AInv (m.addAgent a) := by
  have hagents : ∀ aid, (m.addAgent a).agents.get aid =
      if aid = a.id then some a else m.agents.get aid := by
    intro aid
    show (m.agents.set a.id a).get aid = _
    by_cases haid : aid = a.id
    · subst haid; rw [JsMap.get_set_self, if_pos rfl]
    · rw [JsMap.get_set_ne _ _ _ _ haid, if_neg haid]
  have hcap : ∀ c, (m.addAgent a).capabilities.get c =
      if c ∈ a.capabilities
      then some (setAdd ((m.capabilities.get c).getD []) a.id)
      else m.capabilities.get c := by
    intro c
    rw [AgentManager.addAgent_capabilities]
    exact AgentManager.addCaps_fold_get a.id a.capabilities m.capabilities c
  constructor
  · exact JsMap.keys_nodup_set _ _ _ inv.agentsNodup
  · rw [AgentManager.addAgent_capabilities]
    exact AgentManager.addCaps_fold_keysNodup a.id a.capabilities m.capabilities inv.capsNodup
  · intro c s hcs
    rw [hcap] at hcs
    by_cases hc : c ∈ a.capabilities
    · rw [if_pos hc] at hcs
      cases hcs
      refine nodup_setAdd _ _ ?_
      rcases hoc : m.capabilities.get c with _ | s0
      · simp
      · simpa using inv.bucketsNodup c s0 hoc
    · rw [if_neg hc] at hcs
      exact inv.bucketsNodup c s hcs
  · intro c s hcs
    rw [hcap] at hcs
    by_cases hc : c ∈ a.capabilities
    · rw [if_pos hc] at hcs
      cases hcs
      exact setAdd_ne_nil _ _
    · rw [if_neg hc] at hcs
      exact inv.bucketsNonempty c s hcs
  · intro c aid
    rw [hcap]
    constructor
    · rintro ⟨s, hs, hmem⟩
      by_cases hc : c ∈ a.capabilities
      · rw [if_pos hc] at hs
        cases hs
        rcases (mem_setAdd _ _ _).mp hmem with rfl | hmem2
        · exact ⟨a, by rw [hagents, if_pos rfl], hc⟩
        · have hmem3 : ∃ s0, m.capabilities.get c = some s0 ∧ aid ∈ s0 := by
            rcases hoc : m.capabilities.get c with _ | s0
            · rw [hoc] at hmem2; simp at hmem2
            · rw [hoc] at hmem2; exact ⟨s0, rfl, by simpa using hmem2⟩
          obtain ⟨ag, hag, hcc⟩ := (inv.mem_iff c aid).mp hmem3
          have haid : aid ≠ a.id := by
            intro hh
            rw [hh, hfresh] at hag
            exact Option.noConfusion hag
          exact ⟨ag, by rw [hagents, if_neg haid]; exact hag, hcc⟩
      · rw [if_neg hc] at hs
        obtain ⟨ag, hag, hcc⟩ := (inv.mem_iff c aid).mp ⟨s, hs, hmem⟩
        have haid : aid ≠ a.id := by
          intro hh
          rw [hh, hfresh] at hag
          exact Option.noConfusion hag
        exact ⟨ag, by rw [hagents, if_neg haid]; exact hag, hcc⟩
    · rintro ⟨ag, hag, hcc⟩
      rw [hagents] at hag
      by_cases haid : aid = a.id
      · rw [if_pos haid] at hag
        cases hag
        have hc : c ∈ a.capabilities := hcc
        rw [if_pos hc]
        refine ⟨_, rfl, ?_⟩
        rw [mem_setAdd]
        exact Or.inl haid
      · rw [if_neg haid] at hag
        have hold := (inv.mem_iff c aid).mpr ⟨ag, hag, hcc⟩
        obtain ⟨s0, hs0, hmem0⟩ := hold
        by_cases hc : c ∈ a.capabilities
        · rw [if_pos hc]
          refine ⟨_, rfl, ?_⟩
          rw [mem_setAdd, hs0]
          exact Or.inr (by simpa using hmem0)
        · rw [if_neg hc]
          exact ⟨s0, hs0, hmem0⟩

theorem ainv_remove (m : AgentManager) (ws : Nat) (inv : AInv m) :
    AInv (m.removeAgent ws) := by
  rcases hfind : m.agents.find? (fun p => p.2.ws = ws) with _ | p
  · rw [AgentManager.removeAgent_of_find_none m ws hfind]
    exact inv
  · obtain ⟨id0, ag⟩ := p
    rw [AgentManager.removeAgent_of_find_some m ws id0 ag hfind]
    have hmem0 : (id0, ag) ∈ m.agents := List.mem_of_find?_eq_some hfind
    have hget0 : m.agents.get id0 = some ag :=
      get_of_mem_nodup m.agents id0 ag inv.agentsNodup hmem0
    obtain ⟨hN2, hB2, hget2⟩ :=
      AgentManager.removeCaps_fold id0 ag.capabilities m.capabilities
        inv.capsNodup inv.bucketsNodup
    constructor
    · exact JsMap.keys_nodup_del _ _ inv.agentsNodup
    · exact hN2
    · exact hB2
    · intro c s hcs
      rw [hget2 c] at hcs
      by_cases hc : c ∈ ag.capabilities
      · rw [if_pos hc] at hcs
        obtain ⟨s0, hs0, hsplit, hne⟩ := AgentManager.rmApply_some hcs
        rw [hsplit]
        intro hnil
        rw [hnil] at hne
        exact hne rfl
      · rw [if_neg hc] at hcs
        exact inv.bucketsNonempty c s hcs
    · intro c aid
      by_cases haid : aid = id0
      · subst haid
        constructor
        · rintro ⟨s, hs, hmem⟩
          exfalso
          rw [hget2 c] at hs
          by_cases hc : c ∈ ag.capabilities
          · rw [if_pos hc] at hs
            obtain ⟨s0, hs0, hsplit, hne⟩ := AgentManager.rmApply_some hs
            rw [hsplit] at hmem
            have := ((inv.bucketsNodup c s0 hs0).mem_erase_iff).mp hmem
            exact this.1 rfl
          · rw [if_neg hc] at hs
            obtain ⟨ag2, hag2, hcc2⟩ := (inv.mem_iff c aid).mp ⟨s, hs, hmem⟩
            rw [hget0] at hag2
            cases hag2
            exact hc hcc2
        · rintro ⟨ag2, hag2, hcc2⟩
          exfalso
          rw [show (m.agents.del aid).get aid = none from
            JsMap.get_del_self m.agents aid inv.agentsNodup] at hag2
          exact Option.noConfusion hag2
      · have hdel : (m.agents.del id0).get aid = m.agents.get aid :=
          JsMap.get_del_ne m.agents id0 aid haid
        rw [hget2 c]
        by_cases hc : c ∈ ag.capabilities
        · rw [if_pos hc]
          rcases hoc : m.capabilities.get c with _ | s0
          · constructor
            · rintro ⟨s, hs, hmem⟩
              exact Option.noConfusion (show (none : Option (List String)) = some s from hs)
            · rintro ⟨ag2, hag2, hcc2⟩
              rw [hdel] at hag2
              obtain ⟨s0, hs0, hmem0⟩ := (inv.mem_iff c aid).mpr ⟨ag2, hag2, hcc2⟩
              rw [hoc] at hs0
              exact Option.noConfusion hs0
          · have hnd0 := inv.bucketsNodup c s0 hoc
            by_cases he : (s0.erase id0).isEmpty
            · have hnil : s0.erase id0 = [] := by simpa using he
              constructor
              · rintro ⟨s, hs, hmem⟩
                simp only [AgentManager.rmApply] at hs
                rw [if_pos he] at hs
                exact Option.noConfusion hs
              · rintro ⟨ag2, hag2, hcc2⟩
                rw [hdel] at hag2
                obtain ⟨s1, hs1, hmem1⟩ := (inv.mem_iff c aid).mpr ⟨ag2, hag2, hcc2⟩
                rw [hoc] at hs1
                cases hs1
                have : aid ∈ s0.erase id0 := (hnd0.mem_erase_iff).mpr ⟨haid, hmem1⟩
                rw [hnil] at this
                exact absurd this (List.not_mem_nil aid)
            · have hsome : AgentManager.rmApply id0 (some s0) = some (s0.erase id0) := by
                simp only [AgentManager.rmApply]
                rw [if_neg he]
              rw [hsome]
              constructor
              · rintro ⟨s, hs, hmem⟩
                cases hs
                have hmem2 : aid ∈ s0 := ((hnd0.mem_erase_iff).mp hmem).2
                exact (inv.mem_iff c aid).mp ⟨s0, hoc, hmem2⟩ |>.imp
                  (fun ag2 hh => ⟨by rw [hdel]; exact hh.1, hh.2⟩)
              · rintro ⟨ag2, hag2, hcc2⟩
                rw [hdel] at hag2
                obtain ⟨s1, hs1, hmem1⟩ := (inv.mem_iff c aid).mpr ⟨ag2, hag2, hcc2⟩
                rw [hoc] at hs1
                cases hs1
                exact ⟨s0.erase id0, rfl, (hnd0.mem_erase_iff).mpr ⟨haid, hmem1⟩⟩
        · rw [if_neg hc]
          constructor
          · rintro ⟨s, hs, hmem⟩
            exact (inv.mem_iff c aid).mp ⟨s, hs, hmem⟩ |>.imp
              (fun ag2 hh => ⟨by rw [hdel]; exact hh.1, hh.2⟩)
          · rintro ⟨ag2, hag2, hcc2⟩
            rw [hdel] at hag2
            exact (inv.mem_iff c aid).mpr ⟨ag2, hag2, hcc2⟩

theorem astep_ainv {m m' : AgentManager} (inv : AInv m) (h : AStep m m') : AInv m' := by
  cases h with
  | add a h => exact ainv_add m a inv h
  | remove ws => exact ainv_remove m ws inv

theorem areach_ainv {m : AgentManager} (h : AReach m) : AInv m := by
  induction h with
  | init => exact ainv_empty
  | step hr hs ih => exact astep_ainv ih hs

theorem count_three (l : List (String × Agent))
    (h : ∀ p ∈ l, p.2.status = "idle" ∨ p.2.status = "busy" ∨ p.2.status = "offline") :
    ((l.map (fun p => p.2)).filter (fun a => decide (a.status = "idle"))).length
      + ((l.map (fun p => p.2)).filter (fun a => decide (a.status = "busy"))).length
      + ((l.map (fun p => p.2)).filter (fun a => decide (a.status = "offline"))).length
      = l.length := by
  induction l with
  | nil => simp
  | cons hd tl ih =>
    have hhd := h hd (List.mem_cons_self hd tl)
    have htl : ∀ p ∈ tl, p.2.status = "idle" ∨ p.2.status = "busy" ∨ p.2.status = "offline" :=
      fun p hp => h p (List.mem_cons_of_mem hd hp)
    have hrec := ih htl
    simp only [List.map_cons, List.filter_cons, List.length_cons]
    rcases hhd with hs | hs | hs
    · rw [if_pos (by rw [hs]; decide), if_neg (by rw [hs]; decide),
        if_neg (by rw [hs]; decide)]
      simp only [List.length_cons]
      omega
    · rw [if_neg (by rw [hs]; decide), if_pos (by rw [hs]; decide),
        if_neg (by rw [hs]; decide)]
      simp only [List.length_cons]
      omega
    · rw [if_neg (by rw [hs]; decide), if_neg (by rw [hs]; decide),
        if_pos (by rw [hs]; decide)]
      simp only [List.length_cons]
      omega

namespace TaskQueue

theorem addToHistory_eq (history : List HistoryEntry) (t : Task)
    (hlen : history.length ≤ 999) :
    addToHistory history t = history ++ [historyEntryOf t] := by
  simp only [addToHistory]
  rw [if_neg]
  rw [List.length_append]
  simp only [List.length_singleton]
  omega

theorem addToHistory_getLast (history : List HistoryEntry) (t : Task) :
    (addToHistory history t).getLast? = some (historyEntryOf t) := by
  simp only [addToHistory]
  by_cases hlen : (history ++ [historyEntryOf t]).length > 1000
  · rw [if_pos hlen]
    rw [List.length_append] at hlen
    simp only [List.length_singleton] at hlen
    have hk : (history ++ [historyEntryOf t]).length - 1000 ≤ history.length := by
      rw [List.length_append]
      simp only [List.length_singleton]
      omega
    rw [List.drop_append_of_le_length hk]
    exact List.getLast?_concat _
  · rw [if_neg hlen]
    exact List.getLast?_concat _

theorem completeTask_get_char (q : TaskQueue) (tid : String) (r : Option TaskResult)
    (now : Int) :
    ∀ id u, (q.completeTask tid r now).2.tasks.get id = some u →
      ∃ t0, q.tasks.get id = some t0 ∧ u.retryCount = t0.retryCount ∧
        (u.status = "failed" → t0.status = "failed") := by
  intro id u hu
  rcases hq : q.tasks.get tid with _ | t
  · rw [completeTask_of_none q tid r now hq] at hu
    exact ⟨u, hu, rfl, fun hh => hh⟩
  · rw [completeTask_of_get q tid r now t hq] at hu
    by_cases hid : id = tid
    · subst hid
      rw [JsMap.get_set_self] at hu
      cases hu
      refine ⟨t, hq, rfl, ?_⟩
      intro hh
      exact absurd (show ("completed" : String) = "failed" from hh) (by decide)
    · rw [JsMap.get_set_ne _ _ _ _ hid] at hu
      exact ⟨u, hu, rfl, fun hh => hh⟩

end TaskQueue

theorem tryAssignTask_of_agent_none (st : ServerState) (aid : String) (now : Int)
    (h : st.agents.agents.get aid = none) : tryAssignTask st aid now = st := by
  simp [tryAssignTask, h]

theorem tryAssignTask_of_not_idle (st : ServerState) (aid : String) (now : Int) (ag : Agent)
    (h : st.agents.agents.get aid = some ag) (hs : ¬ ag.status = "idle") :
    tryAssignTask st aid now = st := by
  simp [tryAssignTask, h, hs]

theorem tryAssignTask_of_next_none (st : ServerState) (aid : String) (now : Int) (ag : Agent)
    (q1 : TaskQueue) (h : st.agents.agents.get aid = some ag) (hs : ag.status = "idle")
    (hn : st.queue.getNextTask ag.capabilities = (none, q1)) :
    tryAssignTask st aid now = st := by
  simp [tryAssignTask, h, hs, hn]

theorem tryAssignTask_of_next_some (st : ServerState) (aid : String) (now : Int) (ag : Agent)
    (task : Task) (q1 : TaskQueue) (h : st.agents.agents.get aid = some ag)
    (hs : ag.status = "idle") (hn : st.queue.getNextTask ag.capabilities = (some task, q1)) :
    tryAssignTask st aid now =
      { agents := st.agents.updateAgentStatus aid "busy" now,
        queue := (q1.assignTask task.id aid now).2 } := by
  simp [tryAssignTask, h, hs, hn]

theorem tryAssignTask_queue_char (st : ServerState) (aid : String) (now : Int) :
    (∀ id u, (tryAssignTask st aid now).queue.tasks.get id = some u →
      ∃ t0, st.queue.tasks.get id = some t0 ∧ u.retryCount = t0.retryCount ∧
        (u.status = "failed" → t0.status = "failed")) ∧
    (∀ id, id ∈ (tryAssignTask st aid now).queue.pendingTasks →
      id ∈ st.queue.pendingTasks) ∧
    (tryAssignTask st aid now).queue.taskHistory = st.queue.taskHistory := by
  rcases hag : st.agents.agents.get aid with _ | ag
  · rw [tryAssignTask_of_agent_none st aid now hag]
    exact ⟨fun id u hu => ⟨u, hu, rfl, fun hh => hh⟩, fun id h => h, rfl⟩
  · by_cases hidle : ag.status = "idle"
    · rcases hnext : st.queue.getNextTask ag.capabilities with ⟨res, q1⟩
      rcases res with _ | task
      · rw [tryAssignTask_of_next_none st aid now ag q1 hag hidle hnext]
        exact ⟨fun id u hu => ⟨u, hu, rfl, fun hh => hh⟩, fun id h => h, rfl⟩
      · rw [tryAssignTask_of_next_some st aid now ag task q1 hag hidle hnext]
        simp only [TaskQueue.getNextTask, Prod.mk.injEq] at hnext
        obtain ⟨e1, e2⟩ := hnext
        have hq1tasks : q1.tasks = st.queue.tasks := by rw [← e2]
        have hq1hist : q1.taskHistory = st.queue.taskHistory := by rw [← e2]
        have hq1pend : q1.pendingTasks =
            (TaskQueue.getNextTaskAux st.queue.tasks ag.capabilities
              st.queue.pendingTasks).2 := by rw [← e2]
        rcases hq : q1.tasks.get task.id with _ | t0
        · rw [TaskQueue.assignTask_of_none q1 task.id aid now hq]
          refine ⟨?_, ?_, hq1hist⟩
          · intro id u hu
            rw [hq1tasks] at hu
            exact ⟨u, hu, rfl, fun hh => hh⟩
          · intro id hmem
            rw [hq1pend] at hmem
            exact TaskQueue.getNextTaskAux_snd_subset _ _ _ id hmem
        · rw [TaskQueue.assignTask_of_get q1 task.id aid now t0 hq]
          refine ⟨?_, ?_, hq1hist⟩
          · intro id u hu
            by_cases hid : id = task.id
            · subst hid
              rw [show (q1.tasks.set task.id { t0 with status := "assigned", assignedAgent := some aid, assignedAt := some now }).get task.id = some { t0 with status := "assigned", assignedAgent := some aid, assignedAt := some now } from JsMap.get_set_self _ _ _] at hu
              cases hu
              rw [hq1tasks] at hq
              refine ⟨t0, hq, rfl, ?_⟩
              intro hh
              exact absurd (show ("assigned" : String) = "failed" from hh) (by decide)
            · rw [show ((q1.tasks.set task.id { t0 with status := "assigned", assignedAgent := some aid, assignedAt := some now }) : JsMap Task).get id = q1.tasks.get id from JsMap.get_set_ne _ _ _ _ hid, hq1tasks] at hu
              exact ⟨u, hu, rfl, fun hh => hh⟩
          · intro id hmem
            rw [hq1pend] at hmem
            exact TaskQueue.getNextTaskAux_snd_subset _ _ _ id hmem
    · rw [tryAssignTask_of_not_idle st aid now ag hag hidle]
      exact ⟨fun id u hu => ⟨u, hu, rfl, fun hh => hh⟩, fun id h => h, rfl⟩

theorem tryAssignTask_untouched (st : ServerState) (aid : String) (now : Int) (tid : String)
    (hC : ∀ id u, st.queue.tasks.get id = some u → u.id = id)
    (hnp : tid ∉ st.queue.pendingTasks) :
    (tryAssignTask st aid now).queue.tasks.get tid = st.queue.tasks.get tid := by
  rcases hag : st.agents.agents.get aid with _ | ag
  · rw [tryAssignTask_of_agent_none st aid now hag]
  · by_cases hidle : ag.status = "idle"
    · rcases hnext : st.queue.getNextTask ag.capabilities with ⟨res, q1⟩
      rcases res with _ | task
      · rw [tryAssignTask_of_next_none st aid now ag q1 hag hidle hnext]
      · rw [tryAssignTask_of_next_some st aid now ag task q1 hag hidle hnext]
        simp only [TaskQueue.getNextTask, Prod.mk.injEq] at hnext
        obtain ⟨e1, e2⟩ := hnext
        have hq1tasks : q1.tasks = st.queue.tasks := by rw [← e2]
        obtain ⟨id0, l1, l2, hsplit, hrem, hgot, hcan, hpre⟩ :=
          TaskQueue.getNextTaskAux_some st.queue.tasks ag.capabilities
            st.queue.pendingTasks task e1
        have hid0 : task.id = id0 := hC id0 task hgot
        have hne : tid ≠ task.id := by
          intro hh
          rw [hh, hid0] at hnp
          exact hnp (hsplit ▸ List.mem_append.mpr (Or.inr (List.mem_cons_self id0 l2)))
        rcases hq : q1.tasks.get task.id with _ | t0
        · rw [TaskQueue.assignTask_of_none q1 task.id aid now hq, hq1tasks]
        · rw [TaskQueue.assignTask_of_get q1 task.id aid now t0 hq]
          show (q1.tasks.set task.id _).get tid = _
          rw [JsMap.get_set_ne _ _ _ _ hne, hq1tasks]
    · rw [tryAssignTask_of_not_idle st aid now ag hag hidle]

theorem pairwise_transfer (q : TaskQueue) (tasks2 : JsMap Task)
    (heq : ∀ x, TaskQueue.taskPriorityOf tasks2 x = TaskQueue.taskPriorityOf q.tasks x)
    (h : PendingSortedDesc q) :
    q.pendingTasks.Pairwise
      (fun a b => TaskQueue.taskPriorityOf tasks2 b ≤ TaskQueue.taskPriorityOf tasks2 a) := by
  refine TaskQueue.pairwise_prio_congr (fun x _ => (heq x).symm) h

/-- C1. For every sequence of addTask and failTask-driven re-insert
operations the pending ordering stays sorted by descending priority ordinal
(urgent 4, high 3, normal 2, low 1), submission order is preserved among
surviving entries, and insertTaskByPriority places the new id exactly after
the longest prefix of equal-or-higher priority, immediately before the first
strictly-lower entry; under sortedness every entry after the insertion point
is strictly lower. -/
theorem pending_priority_order (q : TaskQueue) (task : Task)
    (hWF : ∀ id ∈ q.pendingTasks, (q.tasks.get id).isSome)
    (hfresh : q.tasks.get task.id = none) :
    (TaskQueue.getPriorityValue "urgent" > TaskQueue.getPriorityValue "high" ∧
     TaskQueue.getPriorityValue "high" > TaskQueue.getPriorityValue "normal" ∧
     TaskQueue.getPriorityValue "normal" > TaskQueue.getPriorityValue "low") ∧
    ((q.addTask task).pendingTasks =
      q.pendingTasks.takeWhile
          (fun x => decide (TaskQueue.getPriorityValue task.priority ≤
            TaskQueue.taskPriorityOf (q.addTask task).tasks x))
        ++ task.id :: q.pendingTasks.dropWhile
          (fun x => decide (TaskQueue.getPriorityValue task.priority ≤
            TaskQueue.taskPriorityOf (q.addTask task).tasks x))) ∧
    (∀ x ∈ q.pendingTasks.takeWhile
        (fun x => decide (TaskQueue.getPriorityValue task.priority ≤
          TaskQueue.taskPriorityOf (q.addTask task).tasks x)),
      TaskQueue.getPriorityValue task.priority ≤
        TaskQueue.taskPriorityOf (q.addTask task).tasks x) ∧
    (∀ x, (q.pendingTasks.dropWhile
        (fun x => decide (TaskQueue.getPriorityValue task.priority ≤
          TaskQueue.taskPriorityOf (q.addTask task).tasks x))).head? = some x →
      TaskQueue.taskPriorityOf (q.addTask task).tasks x <
        TaskQueue.getPriorityValue task.priority) ∧
    (PendingSortedDesc q →
      PendingSortedDesc (q.addTask task) ∧
      ∀ x ∈ q.pendingTasks.dropWhile
          (fun x => decide (TaskQueue.getPriorityValue task.priority ≤
            TaskQueue.taskPriorityOf (q.addTask task).tasks x)),
        TaskQueue.taskPriorityOf (q.addTask task).tasks x <
          TaskQueue.getPriorityValue task.priority) ∧
    (∀ tid err now, PendingSortedDesc q → PendingSortedDesc (q.failTask tid err now).2) := by
  have hp : TaskQueue.taskPriorityOf (q.addTask task).tasks task.id =
      TaskQueue.getPriorityValue task.priority := by
    rw [TaskQueue.addTask_tasks]
    simp [TaskQueue.taskPriorityOf, JsMap.get_set_self]
  have hagree : ∀ x ∈ q.pendingTasks,
      TaskQueue.taskPriorityOf (q.addTask task).tasks x =
        TaskQueue.taskPriorityOf q.tasks x := by
    intro x hx
    have hxne : x ≠ task.id := by
      intro hh
      have := hWF x hx
      rw [hh, hfresh] at this
      simp at this
    rw [TaskQueue.addTask_tasks]
    simp only [TaskQueue.taskPriorityOf, JsMap.get_set_ne _ _ _ _ hxne]
  have hplace : (q.addTask task).pendingTasks =
      q.pendingTasks.takeWhile
          (fun x => decide (TaskQueue.getPriorityValue task.priority ≤
            TaskQueue.taskPriorityOf (q.addTask task).tasks x))
        ++ task.id :: q.pendingTasks.dropWhile
          (fun x => decide (TaskQueue.getPriorityValue task.priority ≤
            TaskQueue.taskPriorityOf (q.addTask task).tasks x)) := by
    rw [TaskQueue.addTask_pending, TaskQueue.insertSorted_eq_take_drop, hp]
  refine ⟨by decide, hplace, ?_, ?_, ?_, ?_⟩
  · intro x hx
    exact TaskQueue.mem_takeWhile_le hx
  · intro x hx
    have := TaskQueue.head_dropWhile_false _ _ _ hx
    simp only [decide_eq_false_iff_not, Nat.not_le] at this
    exact this
  · intro hsorted
    have hsorted2 : q.pendingTasks.Pairwise
        (fun a b => TaskQueue.taskPriorityOf (q.addTask task).tasks b ≤
          TaskQueue.taskPriorityOf (q.addTask task).tasks a) :=
      TaskQueue.pairwise_prio_congr (fun x hx => (hagree x hx).symm) hsorted
    constructor
    · show (q.addTask task).pendingTasks.Pairwise _
      rw [TaskQueue.addTask_pending]
      have := TaskQueue.insertSorted_pairwise
        (TaskQueue.taskPriorityOf (q.addTask task).tasks) task.id q.pendingTasks hsorted2
      exact this
    · intro x hx
      rcases hd : q.pendingTasks.dropWhile
          (fun x => decide (TaskQueue.getPriorityValue task.priority ≤
            TaskQueue.taskPriorityOf (q.addTask task).tasks x)) with _ | ⟨y, ys⟩
      · rw [hd] at hx
        exact absurd hx (List.not_mem_nil x)
      · have hy : TaskQueue.taskPriorityOf (q.addTask task).tasks y <
            TaskQueue.getPriorityValue task.priority := by
          have := TaskQueue.head_dropWhile_false _ q.pendingTasks y (by rw [hd]; rfl)
          simp only [decide_eq_false_iff_not, Nat.not_le] at this
          exact this
        have hdsorted : (y :: ys).Pairwise
            (fun a b => TaskQueue.taskPriorityOf (q.addTask task).tasks b ≤
              TaskQueue.taskPriorityOf (q.addTask task).tasks a) := by
          rw [← hd]
          exact hsorted2.sublist (List.dropWhile_sublist _)
        rw [hd] at hx
        rcases List.mem_cons.mp hx with rfl | hx2
        · exact hy
        · have := (List.pairwise_cons.mp hdsorted).1 x hx2
          omega
  · intro tid err now hsorted
    rcases hq : q.tasks.get tid with _ | t
    · rw [TaskQueue.failTask_of_none q tid err now hq]
      exact hsorted
    · have hagree2 : ∀ (t2 : Task), t2.priority = t.priority → ∀ x,
          TaskQueue.taskPriorityOf (q.tasks.set tid t2) x =
            TaskQueue.taskPriorityOf q.tasks x := by
        intro t2 hpri x
        by_cases hx : x = tid
        · subst hx
          simp only [TaskQueue.taskPriorityOf, JsMap.get_set_self, hq, hpri]
        · simp only [TaskQueue.taskPriorityOf, JsMap.get_set_ne _ _ _ _ hx]
      by_cases hlt : t.retryCount + 1 < 3
      · rw [TaskQueue.failTask_of_get_lt q tid err now t hq hlt]
        show (TaskQueue.insertTaskByPriority _ tid).pendingTasks.Pairwise _
        simp only [TaskQueue.insertTaskByPriority]
        have hsorted2 := TaskQueue.pairwise_prio_congr
          (fun x _ => (hagree2 { t with status := "pending", completedAt := some now, error := some err, retryCount := t.retryCount + 1, assignedAgent := none, assignedAt := none } rfl x).symm) hsorted
        exact TaskQueue.insertSorted_pairwise _ tid q.pendingTasks hsorted2
      · rw [TaskQueue.failTask_of_get_ge q tid err now t hq hlt]
        exact TaskQueue.pairwise_prio_congr
          (fun x _ => (hagree2 { t with status := "failed", completedAt := some now, error := some err, retryCount := t.retryCount + 1 } rfl x).symm) hsorted

/-- C1 witness: the hypotheses hold for the empty queue and a fresh high
priority task, and the insertion yields a sorted singleton ordering. -/
theorem pending_priority_order_witness :
    (emptyQueue.tasks.get (exTask "t1" "high" []).id = none) ∧
    PendingSortedDesc (emptyQueue.addTask (exTask "t1" "high" [])) := by
  refine ⟨rfl, ?_⟩
  have h := pending_priority_order emptyQueue (exTask "t1" "high" [])
    (by intro id hid; exact absurd hid (List.not_mem_nil id)) rfl
  exact (h.2.2.2.2.1 List.Pairwise.nil).1

/-- C2. getNextTask returns, and removes from the pending ordering, the first
pending task in priority order whose requiredCapabilities is a subset of the
given capability list; every earlier pending task is incompatible; and it
returns none, leaving the queue unchanged, exactly when no pending task is
compatible. -/
theorem getNextTask_first_fit (q : TaskQueue) (caps : List String)
    (hWF : ∀ id ∈ q.pendingTasks, (q.tasks.get id).isSome) :
    (∀ t q1, q.getNextTask caps = (some t, q1) →
      TaskQueue.canAgentHandleTask t caps = true ∧
      (∀ c ∈ t.requiredCapabilities, c ∈ caps) ∧
      ∃ id0 l1 l2, q.pendingTasks = l1 ++ id0 :: l2 ∧ q1.pendingTasks = l1 ++ l2 ∧
        q.tasks.get id0 = some t ∧ q1.tasks = q.tasks ∧
        q1.activeTasks = q.activeTasks ∧
        (∀ a ∈ l1, ∀ u, q.tasks.get a = some u →
          TaskQueue.canAgentHandleTask u caps = false)) ∧
    (∀ q1, q.getNextTask caps = (none, q1) → q1 = q ∧
      ∀ id ∈ q.pendingTasks, ∀ u, q.tasks.get id = some u →
        TaskQueue.canAgentHandleTask u caps = false) := by
  constructor
  · intro t q1 h
    simp only [TaskQueue.getNextTask, Prod.mk.injEq] at h
    obtain ⟨e1, e2⟩ := h
    obtain ⟨id0, l1, l2, hsplit, hrem, hgot, hcan, hpre⟩ :=
      TaskQueue.getNextTaskAux_some q.tasks caps q.pendingTasks t e1
    refine ⟨hcan, ?_, id0, l1, l2, hsplit, by rw [← e2]; exact hrem, hgot, by rw [← e2],
      by rw [← e2], hpre⟩
    intro c hc
    have hall := (List.all_eq_true.mp hcan) c hc
    simpa using hall
  · intro q1 h
    simp only [TaskQueue.getNextTask, Prod.mk.injEq] at h
    obtain ⟨e1, e2⟩ := h
    obtain ⟨hsame, hnone⟩ := TaskQueue.getNextTaskAux_none q.tasks caps q.pendingTasks e1
    constructor
    · rw [← e2, hsame]
    · exact hnone

/-- C2 witness: with two pending tasks, a high-priority one needing an absent
capability ahead of a normal one needing none, the empty capability list
takes the second task, so the returned task is compatible and the earlier
incompatible one stays queued. -/
theorem getNextTask_first_fit_witness :
    (∀ id ∈ ((emptyQueue.addTask (exTask "a" "high" ["x"])).addTask
        (exTask "b" "normal" [])).pendingTasks,
      ((((emptyQueue.addTask (exTask "a" "high" ["x"])).addTask
        (exTask "b" "normal" [])).tasks).get id).isSome) ∧
    TaskQueue.canAgentHandleTask (exTask "b" "normal" []) [] = true ∧
    (∀ c ∈ (exTask "b" "normal" []).requiredCapabilities, c ∈ ([] : List String)) := by
  have hWF : ∀ id ∈ ((emptyQueue.addTask (exTask "a" "high" ["x"])).addTask
      (exTask "b" "normal" [])).pendingTasks,
      ((((emptyQueue.addTask (exTask "a" "high" ["x"])).addTask
        (exTask "b" "normal" [])).tasks).get id).isSome := by decide
  have h := (getNextTask_first_fit
    ((emptyQueue.addTask (exTask "a" "high" ["x"])).addTask (exTask "b" "normal" []))
    [] hWF).1 (exTask "b" "normal" [])
    (((emptyQueue.addTask (exTask "a" "high" ["x"])).addTask
      (exTask "b" "normal" [])).getNextTask []).2 (by decide)
  exact ⟨hWF, h.1, h.2.1⟩

/-- C3. For a known task id, failTask returns true and increments retryCount;
below the ceiling of 3 the task is reset to pending with its assignment
fields cleared and its id re-inserted by priority as a fresh arrival; at the
ceiling the task is marked failed, the pending ordering is untouched and a
history entry for the task is appended; and once retryCount is at least 3
and the id is out of the pending ordering, no later queue operation ever
re-inserts it or lowers its retryCount. -/
theorem failTask_retry_semantics (q : TaskQueue) (tid err : String) (now : Int) (t : Task)
    (h : q.tasks.get tid = some t) :
    (q.failTask tid err now).1 = true ∧
    (∀ u, (q.failTask tid err now).2.tasks.get tid = some u →
      u.retryCount = t.retryCount + 1) ∧
    (t.retryCount + 1 < 3 →
      ∃ u, (q.failTask tid err now).2.tasks.get tid = some u ∧ u.status = "pending" ∧
        u.assignedAgent = none ∧ u.assignedAt = none ∧
        (q.failTask tid err now).2.pendingTasks =
          TaskQueue.insertSorted (TaskQueue.taskPriorityOf (q.failTask tid err now).2.tasks)
            (TaskQueue.taskPriorityOf (q.failTask tid err now).2.tasks tid) tid
            q.pendingTasks) ∧
    (¬ t.retryCount + 1 < 3 →
      ∃ u, (q.failTask tid err now).2.tasks.get tid = some u ∧ u.status = "failed" ∧
        (q.failTask tid err now).2.pendingTasks = q.pendingTasks ∧
        (q.failTask tid err now).2.taskHistory.getLast? =
          some (TaskQueue.historyEntryOf u)) ∧
    (∀ q2 q3, TaskQueue.QAnyStep q2 q3 → q2.tasks.keys.Nodup →
      ∀ u, q2.tasks.get tid = some u → 3 ≤ u.retryCount → tid ∉ q2.pendingTasks →
        q3.tasks.keys.Nodup ∧ tid ∉ q3.pendingTasks ∧
        ∀ u2, q3.tasks.get tid = some u2 → 3 ≤ u2.retryCount) := by
  refine ⟨?_, ?_, ?_, ?_, ?_⟩
  · by_cases hlt : t.retryCount + 1 < 3
    · rw [TaskQueue.failTask_of_get_lt q tid err now t h hlt]
    · rw [TaskQueue.failTask_of_get_ge q tid err now t h hlt]
  · intro u hu
    by_cases hlt : t.retryCount + 1 < 3
    · rw [TaskQueue.failTask_of_get_lt q tid err now t h hlt] at hu
      have h2 : (q.tasks.set tid { t with status := "pending", completedAt := some now, error := some err, retryCount := t.retryCount + 1, assignedAgent := none, assignedAt := none }).get tid = some u := hu
      rw [JsMap.get_set_self] at h2
      cases h2
      rfl
    · rw [TaskQueue.failTask_of_get_ge q tid err now t h hlt] at hu
      have h2 : (q.tasks.set tid { t with status := "failed", completedAt := some now, error := some err, retryCount := t.retryCount + 1 }).get tid = some u := hu
      rw [JsMap.get_set_self] at h2
      cases h2
      rfl
  · intro hlt
    rw [TaskQueue.failTask_of_get_lt q tid err now t h hlt]
    refine ⟨{ t with status := "pending", completedAt := some now, error := some err, retryCount := t.retryCount + 1, assignedAgent := none, assignedAt := none }, ?_, rfl, rfl, rfl, rfl⟩
    show (q.tasks.set tid _).get tid = _
    rw [JsMap.get_set_self]
  · intro hge
    rw [TaskQueue.failTask_of_get_ge q tid err now t h hge]
    refine ⟨{ t with status := "failed", completedAt := some now, error := some err, retryCount := t.retryCount + 1 }, ?_, rfl, rfl, ?_⟩
    · show (q.tasks.set tid _).get tid = _
      rw [JsMap.get_set_self]
    · exact TaskQueue.addToHistory_getLast _ _
  · intro q2 q3 hstep hN u hu hretry hnp
    exact TaskQueue.permfail_preserved hstep hN hu hretry hnp

/-- C3 witness: failing a freshly queued task once returns true and leaves it
with retryCount 1. -/
theorem failTask_retry_semantics_witness :
    ((emptyQueue.addTask (exTask "t1" "normal" [])).failTask "t1" "boom" 5).1 = true ∧
    ∃ u, ((emptyQueue.addTask (exTask "t1" "normal" [])).failTask "t1" "boom"
        5).2.tasks.get "t1" = some u ∧ u.retryCount = 1 := by
  have h := failTask_retry_semantics (emptyQueue.addTask (exTask "t1" "normal" []))
    "t1" "boom" 5 (exTask "t1" "normal" []) (by decide)
  refine ⟨h.1, ?_⟩
  obtain ⟨u, hu, hstat, h3, h4, h5⟩ := h.2.2.1 (by decide)
  exact ⟨u, hu, h.2.1 u hu⟩

/-- C4 counterexample: after addTask then a bare getNextTask, reachable by
the queue's own operations, the task still has status pending but its id is
no longer in the pending ordering, because getNextTask removes the id while
assignTask alone updates the status; the claimed biconditional fails at this
state. -/
theorem pending_iff_counterexample :
    (((emptyQueue.addTask (exTask "t1" "normal" [])).getNextTask
        []).2.tasks.get "t1").map (fun t => t.status) = some "pending" ∧
    "t1" ∉ ((emptyQueue.addTask (exTask "t1" "normal" [])).getNextTask
        []).2.pendingTasks := by decide

/-- C4 amended: for sequences in which a successful getNextTask is
immediately followed by assignTask on the returned task and completeTask and
failTask are applied only to currently assigned tasks (as the coordinator
does), every known task is in the pending ordering iff its status is
pending, in the active map iff its status is assigned, and never in both. -/
theorem pending_active_membership (q : TaskQueue) (hr : TaskQueue.QReach q) :
    ∀ id t, q.tasks.get id = some t →
      (t.status = "pending" ↔ id ∈ q.pendingTasks) ∧
      (t.status = "assigned" ↔ id ∈ q.activeTasks.keys) ∧
      ¬ (id ∈ q.pendingTasks ∧ id ∈ q.activeTasks.keys) := by
  have inv := TaskQueue.qreach_inv hr
  intro id t ht
  refine ⟨inv.pending_iff id t ht, inv.active_iff id t ht, ?_⟩
  rintro ⟨h1, h2⟩
  have e1 := (inv.pending_iff id t ht).mpr h1
  have e2 := (inv.active_iff id t ht).mpr h2
  rw [e1] at e2
  exact absurd e2 (by decide)

/-- C4 witness: the invariant holds at the reachable state with one freshly
added task. -/
theorem pending_active_membership_witness :
    ((exTask "t1" "normal" []).status = "pending" ↔
      "t1" ∈ (emptyQueue.addTask (exTask "t1" "normal" [])).pendingTasks) ∧
    ¬ ("t1" ∈ (emptyQueue.addTask (exTask "t1" "normal" [])).pendingTasks ∧
       "t1" ∈ (emptyQueue.addTask (exTask "t1" "normal" [])).activeTasks.keys) := by
  have h := pending_active_membership (emptyQueue.addTask (exTask "t1" "normal" []))
    (TaskQueue.QReach.step TaskQueue.QReach.init
      (TaskQueue.QStep.add emptyQueue (exTask "t1" "normal" []) rfl))
    "t1" (exTask "t1" "normal" []) (by decide)
  exact ⟨h.1, h.2.2⟩

/-- C5. After every sequence of addAgent (with the coordinator's fresh ids)
and removeAgent operations, every capability bucket present in the index is
exactly the set of currently registered agents whose capability list has
that capability, and no bucket is empty. -/
theorem capability_index_exact (m : AgentManager) (hr : AReach m) :
    ∀ c s, m.capabilities.get c = some s →
      (∀ aid, aid ∈ s ↔ ∃ ag, m.agents.get aid = some ag ∧ c ∈ ag.capabilities) ∧
      s ≠ [] := by
  have inv := areach_ainv hr
  intro c s hcs
  refine ⟨?_, inv.bucketsNonempty c s hcs⟩
  intro aid
  constructor
  · intro hmem
    exact (inv.mem_iff c aid).mp ⟨s, hcs, hmem⟩
  · intro hex
    obtain ⟨s2, hs2, hmem2⟩ := (inv.mem_iff c aid).mpr hex
    rw [hcs] at hs2
    cases hs2
    exact hmem2

/-- C5 witness: after registering one agent with capability text, the text
bucket is exactly that agent and is nonempty. -/
theorem capability_index_exact_witness :
    ("a1" ∈ ["a1"] ↔ ∃ ag, (emptyManager.addAgent exAgent).agents.get "a1" = some ag ∧
      "text" ∈ ag.capabilities) ∧ (["a1"] : List String) ≠ [] := by
  have h := capability_index_exact (emptyManager.addAgent exAgent)
    (AReach.step AReach.init (AStep.add emptyManager exAgent rfl))
    "text" ["a1"] (by decide)
  exact ⟨h.1 "a1", h.2⟩

theorem tryAssignTask_fields (st : ServerState) (aid : String) (now : Int) (tid : String)
    (t0 : Task) (h : st.queue.tasks.get tid = some t0) :
    ∃ u, (tryAssignTask st aid now).queue.tasks.get tid = some u ∧
      u.type = t0.type ∧ u.payload = t0.payload ∧ u.priority = t0.priority ∧
      u.requiredCapabilities = t0.requiredCapabilities ∧ u.createdAt = t0.createdAt := by
  rcases hag : st.agents.agents.get aid with _ | ag
  · rw [tryAssignTask_of_agent_none st aid now hag]
    exact ⟨t0, h, rfl, rfl, rfl, rfl, rfl⟩
  · by_cases hidle : ag.status = "idle"
    · rcases hnext : st.queue.getNextTask ag.capabilities with ⟨res, q1⟩
      rcases res with _ | task
      · rw [tryAssignTask_of_next_none st aid now ag q1 hag hidle hnext]
        exact ⟨t0, h, rfl, rfl, rfl, rfl, rfl⟩
      · rw [tryAssignTask_of_next_some st aid now ag task q1 hag hidle hnext]
        simp only [TaskQueue.getNextTask, Prod.mk.injEq] at hnext
        obtain ⟨e1, e2⟩ := hnext
        have hq1tasks : q1.tasks = st.queue.tasks := by rw [← e2]
        rcases hq : q1.tasks.get task.id with _ | t1
        · rw [TaskQueue.assignTask_of_none q1 task.id aid now hq, hq1tasks]
          exact ⟨t0, h, rfl, rfl, rfl, rfl, rfl⟩
        · rw [TaskQueue.assignTask_of_get q1 task.id aid now t1 hq]
          by_cases hid : tid = task.id
          · subst hid
            rw [hq1tasks, h] at hq
            cases hq
            refine ⟨{ t0 with status := "assigned", assignedAgent := some aid, assignedAt := some now }, ?_, rfl, rfl, rfl, rfl, rfl⟩
            show (q1.tasks.set task.id _).get task.id = _
            rw [JsMap.get_set_self]
          · refine ⟨t0, ?_, rfl, rfl, rfl, rfl, rfl⟩
            show (q1.tasks.set task.id _).get tid = _
            rw [JsMap.get_set_ne _ _ _ _ hid, hq1tasks]
            exact h
    · rw [tryAssignTask_of_not_idle st aid now ag hag hidle]
      exact ⟨t0, h, rfl, rfl, rfl, rfl, rfl⟩

/-- C6 counterexample: a submission carrying priority low and
requiredCapabilities x, y is stored with priority high and
requiredCapabilities equal to the singleton of its type: the route ignores
the caller-supplied priority and requiredCapabilities fields. -/
theorem submit_ignores_caller_fields :
    ((submitTask emptyServer
        { type := "summarize", payload := "p", priority := "low",
          requiredCapabilities := ["x", "y"] } "t9" none 0).2.queue.tasks.get "t9").map
      (fun t => (t.priority, t.requiredCapabilities)) = some ("high", ["summarize"]) ∧
    ("high" : String) ≠ "low" ∧ (["summarize"] : List String) ≠ ["x", "y"] := by decide

/-- C6 amended: the submission route always accepts: it synchronously
responds success with the generated id regardless of agent availability, and
creates a task whose type, payload and createdAt come from the request, but
whose priority is always high and whose requiredCapabilities is the
singleton of the type field (empty when the type is empty), ignoring the
caller-supplied priority and requiredCapabilities. -/
theorem submit_always_accepts (st : ServerState) (body : SubmitBody) (newId : String)
    (oracle : Option String) (now : Int) :
    (submitTask st body newId oracle now).1 = (true, newId) ∧
    ∃ t, (submitTask st body newId oracle now).2.queue.tasks.get newId = some t ∧
      t.type = body.type ∧ t.payload = body.payload ∧ t.priority = "high" ∧
      t.createdAt = now ∧
      t.requiredCapabilities = (if body.type = "" then [] else [body.type]) := by
  constructor
  · rfl
  · have hbase : ∀ (stx : ServerState) (task : Task), stx.queue.tasks.get task.id = some task →
        ∀ oc, ∃ t, (tryAssignToAnyAgent stx task oc now).queue.tasks.get task.id = some t ∧
          t.type = task.type ∧ t.payload = task.payload ∧ t.priority = task.priority ∧
          t.createdAt = task.createdAt ∧
          t.requiredCapabilities = task.requiredCapabilities := by
      intro stx task htask oc
      simp only [tryAssignToAnyAgent]
      by_cases havail : (stx.agents.getIdleAgents task.requiredCapabilities).length > 0
      · rw [if_pos havail]
        rcases oc with _ | best
        · exact ⟨task, htask, rfl, rfl, rfl, rfl, rfl⟩
        · obtain ⟨u, hu, h1, h2, h3, h4, h5⟩ :=
            tryAssignTask_fields stx best now task.id task htask
          exact ⟨u, hu, h1, h2, h3, h5, h4⟩
      · rw [if_neg havail]
        exact ⟨task, htask, rfl, rfl, rfl, rfl, rfl⟩
    have hstored : ({ st with queue := st.queue.addTask { id := newId, type := body.type, payload := body.payload, priority := "high", requiredCapabilities := (if body.type = "" then [] else [body.type]), createdAt := now, status := "pending", assignedAgent := none, assignedAt := none, completedAt := none, result := none, error := none, retryCount := 0 } } : ServerState).queue.tasks.get newId = some { id := newId, type := body.type, payload := body.payload, priority := "high", requiredCapabilities := (if body.type = "" then [] else [body.type]), createdAt := now, status := "pending", assignedAgent := none, assignedAt := none, completedAt := none, result := none, error := none, retryCount := 0 } := by
      show ((st.queue.addTask _).tasks).get newId = _
      rw [TaskQueue.addTask_tasks]
      exact JsMap.get_set_self _ _ _
    obtain ⟨t, ht, h1, h2, h3, h4, h5⟩ := hbase
      ({ st with queue := st.queue.addTask { id := newId, type := body.type, payload := body.payload, priority := "high", requiredCapabilities := (if body.type = "" then [] else [body.type]), createdAt := now, status := "pending", assignedAgent := none, assignedAt := none, completedAt := none, result := none, error := none, retryCount := 0 } })
      ({ id := newId, type := body.type, payload := body.payload, priority := "high", requiredCapabilities := (if body.type = "" then [] else [body.type]), createdAt := now, status := "pending", assignedAgent := none, assignedAt := none, completedAt := none, result := none, error := none, retryCount := 0 })
      hstored oracle
    exact ⟨t, ht, h1, h2, h3, h4, h5⟩

/-- The count fields of the queue stats record are the sizes of the four
stores, in both branches of the history conditional. -/
theorem getStats_counts (q : TaskQueue) :
    (q.getStats).pending = q.pendingTasks.length ∧
    (q.getStats).active = q.activeTasks.size ∧
    (q.getStats).completed = q.completedTasks.size ∧
    (q.getStats).total = q.tasks.size := by
  simp only [TaskQueue.getStats]
  by_cases hc : ((q.taskHistory.filter (fun e => e.completedAt.isSome)).length > 0)
  · rw [if_pos hc]
    exact ⟨rfl, rfl, rfl, rfl⟩
  · rw [if_neg hc]
    exact ⟨rfl, rfl, rfl, rfl⟩

/-- C7 counterexample: an agent status report may carry any string and the
registry stores it verbatim, so after updateAgentStatus with status error
the three fixed counters sum to 0 while total is 1, and the claimed equation
fails at a state reachable through addAgent and updateAgentStatus. -/
theorem stats_sum_counterexample :
    (AgentManager.getStats ((emptyManager.addAgent exAgent).updateAgentStatus
        "a1" "error" 5)).idle
      + (AgentManager.getStats ((emptyManager.addAgent exAgent).updateAgentStatus
        "a1" "error" 5)).busy
      + (AgentManager.getStats ((emptyManager.addAgent exAgent).updateAgentStatus
        "a1" "error" 5)).offline = 0 ∧
    (AgentManager.getStats ((emptyManager.addAgent exAgent).updateAgentStatus
        "a1" "error" 5)).total = 1 := by decide

/-- C7 amended: when every registered agent's stored status is one of idle,
busy and offline, the agent stats partition total; and at every queue state
reachable by protocol-respecting operations the task stats satisfy
pending + active + completed at most total. -/
theorem stats_sums (m : AgentManager) (q : TaskQueue)
    (hm : ∀ p ∈ m.agents, p.2.status = "idle" ∨ p.2.status = "busy" ∨
      p.2.status = "offline")
    (hq : TaskQueue.QReach q) :
    (AgentManager.getStats m).idle + (AgentManager.getStats m).busy
        + (AgentManager.getStats m).offline = (AgentManager.getStats m).total ∧
    (q.getStats).pending + (q.getStats).active + (q.getStats).completed ≤
      (q.getStats).total := by
  constructor
  · show AgentManager.countStatus m "idle" + AgentManager.countStatus m "busy"
      + AgentManager.countStatus m "offline" = m.agents.size
    simp only [AgentManager.countStatus, JsMap.size]
    exact count_three m.agents hm
  · obtain ⟨h1, h2, h3, h4⟩ := getStats_counts q
    rw [h1, h2, h3, h4]
    exact TaskQueue.qinv_count q (TaskQueue.qreach_inv hq)

/-- C7 witness: one idle agent and the empty queue satisfy the hypotheses,
and both stats relations hold there. -/
theorem stats_sums_witness :
    (AgentManager.getStats (emptyManager.addAgent exAgent)).idle
      + (AgentManager.getStats (emptyManager.addAgent exAgent)).busy
      + (AgentManager.getStats (emptyManager.addAgent exAgent)).offline
      = (AgentManager.getStats (emptyManager.addAgent exAgent)).total ∧
    (emptyQueue.getStats).pending + (emptyQueue.getStats).active
      + (emptyQueue.getStats).completed ≤ (emptyQueue.getStats).total := by
  exact stats_sums (emptyManager.addAgent exAgent) emptyQueue (by decide)
    TaskQueue.QReach.init

/-- C8. History entries carry no createdAt field, so getStats computes each
wait time as assignedAt minus undefined, which is NaN in JS (none here):
with one completed task whose data would give wait time 10, averageWaitTime
is NaN rather than the documented mean, while averageCompletionTime and
successRate are computed as described. -/
theorem averageWaitTime_is_nan :
    (TaskQueue.getStats q8).averageWaitTime = none ∧
    (q8.tasks.get "t1").map (fun t => t.createdAt) = some 0 ∧
    q8.taskHistory.map (fun e => e.assignedAt) = [some 10] ∧
    q8.taskHistory.map (fun e => e.duration) = [20] ∧
    q8.taskHistory.map (fun e => e.success) = [true] := by decide

/-- C9. No protocol handler invokes failTask: handleMessage never increments
any retryCount and never marks a task failed; and a task-result message for
a known, not-pending task records it as completed with the reported result
(whatever its success flag), appends a history entry for it, and leaves it
out of the pending ordering. -/
theorem handleMessage_never_retries (st : ServerState) (msg : Msg) (now : Int) :
    (∀ id u, (handleMessage st msg now).queue.tasks.get id = some u →
      ∃ t0, st.queue.tasks.get id = some t0 ∧ u.retryCount = t0.retryCount ∧
        (u.status = "failed" → t0.status = "failed")) ∧
    (∀ tid aid r t, msg = Msg.taskResult tid aid r →
      st.queue.tasks.get tid = some t → tid ∉ st.queue.pendingTasks →
      (∀ id u, st.queue.tasks.get id = some u → u.id = id) →
      ∃ u, (handleMessage st msg now).queue.tasks.get tid = some u ∧
        u.status = "completed" ∧ u.result = r ∧
        tid ∉ (handleMessage st msg now).queue.pendingTasks ∧
        (handleMessage st msg now).queue.taskHistory.getLast? =
          some (TaskQueue.historyEntryOf { t with status := "completed", completedAt := some now, result := r })) := by
  constructor
  · intro id u hu
    cases msg with
    | agentRegister ws caps newId =>
      exact ((tryAssignTask_queue_char { st with agents := st.agents.addAgent { id := newId, ws := ws, capabilities := caps, status := "idle", registeredAt := now, lastHeartbeat := some now, lastTaskCompletedAt := none } } newId now).1 id u hu)
    | agentStatus agentId status =>
      simp only [handleMessage] at hu
      by_cases hidle : status = "idle"
      · rw [if_pos hidle] at hu
        exact ((tryAssignTask_queue_char { st with agents := st.agents.updateAgentStatus agentId status now } agentId now).1 id u hu)
      · rw [if_neg hidle] at hu
        exact ⟨u, hu, rfl, fun hh => hh⟩
    | taskResult tid aid r =>
      obtain ⟨t1, ht1, hr1, hf1⟩ := (tryAssignTask_queue_char _ aid now).1 id u hu
      obtain ⟨t0, ht0, hr0, hf0⟩ :=
        TaskQueue.completeTask_get_char st.queue tid r now id t1 ht1
      exact ⟨t0, ht0, by rw [hr1, hr0], fun hh => hf0 (hf1 hh)⟩
    | dashboardConnect =>
      exact ⟨u, hu, rfl, fun hh => hh⟩
  · rintro tid aid r t rfl ht hnp hC
    have hcomp := TaskQueue.completeTask_of_get st.queue tid r now t ht
    have hst1get : ((st.queue.completeTask tid r now).2).tasks.get tid =
        some { t with status := "completed", completedAt := some now, result := r } := by
      rw [hcomp]
      show (st.queue.tasks.set tid _).get tid = _
      rw [JsMap.get_set_self]
    have hst1pend : tid ∉ ((st.queue.completeTask tid r now).2).pendingTasks := by
      rw [hcomp]
      exact hnp
    have hst1C : ∀ id u, ((st.queue.completeTask tid r now).2).tasks.get id = some u →
        u.id = id := by
      intro id u hu
      rw [hcomp] at hu
      by_cases hid : id = tid
      · subst hid
        have h2 : (st.queue.tasks.set id { t with status := "completed", completedAt := some now, result := r }).get id = some u := hu
        rw [JsMap.get_set_self] at h2
        cases h2
        exact hC id t ht
      · have h2 : (st.queue.tasks.set tid { t with status := "completed", completedAt := some now, result := r }).get id = some u := hu
        rw [JsMap.get_set_ne _ _ _ _ hid] at h2
        exact hC id u h2
    have hst1hist : ((st.queue.completeTask tid r now).2).taskHistory =
        TaskQueue.addToHistory st.queue.taskHistory
          { t with status := "completed", completedAt := some now, result := r } := by
      rw [hcomp]
    refine ⟨{ t with status := "completed", completedAt := some now, result := r }, ?_, rfl,
      rfl, ?_, ?_⟩
    · show (tryAssignTask { st with queue := (st.queue.completeTask tid r now).2 }
        aid now).queue.tasks.get tid = _
      rw [tryAssignTask_untouched _ aid now tid hst1C hst1pend]
      exact hst1get
    · intro hmem
      have := (tryAssignTask_queue_char
        { st with queue := (st.queue.completeTask tid r now).2 } aid now).2.1 tid hmem
      exact hst1pend this
    · show (tryAssignTask { st with queue := (st.queue.completeTask tid r now).2 }
        aid now).queue.taskHistory.getLast? = _
      rw [(tryAssignTask_queue_char _ aid now).2.2]
      show ((st.queue.completeTask tid r now).2).taskHistory.getLast? = _
      rw [hst1hist]
      exact TaskQueue.addToHistory_getLast _ _

/-- C9 witness: a failure report (success false) for an assigned task leaves
it completed with the failure payload recorded and not re-queued. -/
theorem handleMessage_never_retries_witness :
    ∃ u, (handleMessage st9 msg9 99).queue.tasks.get "t1" = some u ∧
      u.status = "completed" ∧
      u.result = some { success := some false, output := "err" } ∧
      "t1" ∉ (handleMessage st9 msg9 99).queue.pendingTasks := by
  have hC : ∀ id u, st9.queue.tasks.get id = some u → u.id = id := by
    have e : st9.queue.tasks = [("t1", { exTask "t1" "normal" [] with status := "assigned", assignedAgent := some "ag", assignedAt := some 10 })] := by decide
    intro id u hu
    rw [e] at hu
    simp only [JsMap.get] at hu
    by_cases hid : "t1" = id
    · rw [if_pos hid] at hu
      cases hu
      rw [← hid]
      rfl
    · rw [if_neg hid] at hu
      exact Option.noConfusion hu
  obtain ⟨u, hu, h1, h2, h3, h4⟩ := (handleMessage_never_retries st9 msg9 99).2
    "t1" "ag" (some { success := some false, output := "err" })
    { exTask "t1" "normal" [] with status := "assigned", assignedAgent := some "ag", assignedAt := some 10 }
    rfl (by decide) (by decide) hC
  exact ⟨u, hu, h1, h2, h3⟩

/-- C10. completeTask has no guard on the task's current status: for a known
id it returns true and appends a history entry each time, so two calls with
the same id produce two history entries for that task. -/
theorem completeTask_not_idempotent (q : TaskQueue) (tid : String)
    (r1 r2 : Option TaskResult) (n1 n2 : Int) (t : Task)
    (h : q.tasks.get tid = some t) (hlen : q.taskHistory.length ≤ 998) :
    (q.completeTask tid r1 n1).1 = true ∧
    ((q.completeTask tid r1 n1).2.completeTask tid r2 n2).1 = true ∧
    ∃ e1 e2, ((q.completeTask tid r1 n1).2.completeTask tid r2 n2).2.taskHistory =
      q.taskHistory ++ [e1, e2] ∧ e1.taskId = t.id ∧ e2.taskId = t.id := by
  have hc1 := TaskQueue.completeTask_of_get q tid r1 n1 t h
  have hget1 : (q.completeTask tid r1 n1).2.tasks.get tid =
      some { t with status := "completed", completedAt := some n1, result := r1 } := by
    rw [hc1]
    show (q.tasks.set tid _).get tid = _
    rw [JsMap.get_set_self]
  have hc2 := TaskQueue.completeTask_of_get (q.completeTask tid r1 n1).2 tid r2 n2
    { t with status := "completed", completedAt := some n1, result := r1 } hget1
  refine ⟨by rw [hc1], by rw [hc2], ?_⟩
  refine ⟨TaskQueue.historyEntryOf { t with status := "completed", completedAt := some n1, result := r1 }, TaskQueue.historyEntryOf { t with status := "completed", completedAt := some n2, result := r2 }, ?_, rfl, rfl⟩
  have hh1 : (q.completeTask tid r1 n1).2.taskHistory =
      q.taskHistory ++ [TaskQueue.historyEntryOf { t with status := "completed", completedAt := some n1, result := r1 }] := by
    rw [hc1]
    show TaskQueue.addToHistory q.taskHistory _ = _
    exact TaskQueue.addToHistory_eq _ _ (by omega)
  have hh2 : ((q.completeTask tid r1 n1).2.completeTask tid r2 n2).2.taskHistory =
      (q.completeTask tid r1 n1).2.taskHistory
        ++ [TaskQueue.historyEntryOf { { t with status := "completed", completedAt := some n1, result := r1 } with status := "completed", completedAt := some n2, result := r2 }] := by
    rw [hc2]
    show TaskQueue.addToHistory (q.completeTask tid r1 n1).2.taskHistory _ = _
    refine TaskQueue.addToHistory_eq _ _ ?_
    rw [hh1, List.length_append]
    simp only [List.length_singleton]
    omega
  rw [hh2, hh1, List.append_assoc]
  rfl

/-- C10 witness: completing a freshly queued task twice returns true twice
and appends two history entries for it. -/
theorem completeTask_not_idempotent_witness :
    ((emptyQueue.addTask (exTask "t1" "normal" [])).completeTask "t1" none 1).1 = true ∧
    (((emptyQueue.addTask (exTask "t1" "normal" [])).completeTask "t1" none
      1).2.completeTask "t1" none 2).1 = true ∧
    ∃ e1 e2, (((emptyQueue.addTask (exTask "t1" "normal" [])).completeTask "t1" none
      1).2.completeTask "t1" none 2).2.taskHistory = [] ++ [e1, e2] ∧
      e1.taskId = (exTask "t1" "normal" []).id ∧ e2.taskId = (exTask "t1" "normal" []).id := by
  exact completeTask_not_idempotent (emptyQueue.addTask (exTask "t1" "normal" []))
    "t1" none none 1 2 (exTask "t1" "normal" []) (by decide) (by decide)

end Orch
